import Mathlib

/-!
# Verification of the tars personal search engine (db.py / crawl.py)

A shallow embedding of the core operations of the `tars` link store and
search engine, translated from `src/tars/db.py` and `src/tars/crawl.py`,
together with proofs and refutations of the specification's claims about:

* the derived `search_text` projection (the generated column of `db_init`),
* hidden / error-status filtering in the three search operations,
* reciprocal-rank-fusion scoring of `db_hybrid_search`,
* the hybrid search cache (`db_cache_search`, `db_get_cached_search`,
  `_compute_cache_key`) and its invalidation on store mutations,
* glob-based removal (`db_remove_links_pattern`),
* crawl-data updates (`db_update_crawl_data`) and embedding staleness,
* URL normalization (`normalize_url` of crawl.py, over a model of
  Python's `urllib.parse`).

SQL text values are modeled as Lean `String`s (with `List Char` as the
working representation); SQL `NULL`-able columns as `Option`; `NUMERIC`
scores as `ℚ`.  The BM25 scorer (`<@>` / `to_bm25query`) and the embedding
distance (`ai.openai_embed` composed with `<=>`) are opaque database
extensions, so they enter the model as explicit function parameters.
-/

/-! ## Generic string helpers (SQL REPLACE, Python str methods) -/

/-- SQL `REPLACE(s, pat, rep)`: replace every occurrence of `pat` in `s`
by `rep`, scanning left to right, non-overlapping.  An empty pattern
matches nothing (SQL `REPLACE(s, '', r) = s`). -/
def replaceAll (pat rep : List Char) : List Char → List Char
  | [] => []
  | c :: rest =>
    if h : pat ≠ [] ∧ pat.isPrefixOf (c :: rest) then
      rep ++ replaceAll pat rep ((c :: rest).drop pat.length)
    else
      c :: replaceAll pat rep rest
termination_by s => s.length
decreasing_by
  · simp only [List.length_drop, List.length_cons]
    have hp : 1 ≤ pat.length := by
      cases pat with
      | nil => exact absurd rfl h.1
      | cons a l => simp
    omega
  · simp

/-- String wrapper for `replaceAll`, mirroring SQL `REPLACE`. -/
def strReplace (pat rep s : String) : String :=
  ⟨replaceAll pat.data rep.data s.data⟩

/-! ## The document record (table `links` of `db_init`) -/

/-- One row of the `links` table.  `url` is `TEXT UNIQUE NOT NULL`; the
other text columns are nullable.  `embedding vector(1536)` is modeled by
the snapshot of the text it was generated from (`ai.openai_embed` is a
deterministic function of its input text, so the snapshot determines the
vector); `none` is SQL `NULL` (a pending embedding).  Timestamp columns
(`added_at`, `updated_at`, `crawled_at`) and `tags` play no part in the
claims and are elided. -/
structure Link where
  id : Nat
  url : String
  title : Option String := none
  description : Option String := none
  content : Option String := none
  notes : Option String := none
  hidden : Bool := false
  httpStatus : Option Int := none
  crawlError : Option String := none
  embedding : Option String := none
deriving DecidableEq, Repr

/-- `COALESCE(field, '')`. -/
def coalesceStr (o : Option String) : String := o.getD ""

/-- The raw concatenation inside the `search_text` generated column:
`COALESCE(url,'') || ' ' || COALESCE(title,'') || ' ' || ... || COALESCE(notes,'')`. -/
def searchConcat (l : Link) : String :=
  l.url ++ " " ++ coalesceStr l.title ++ " " ++ coalesceStr l.description ++ " " ++
    coalesceStr l.content ++ " " ++ coalesceStr l.notes

/-- The `search_text` generated column of `db_init`:
`REPLACE(REPLACE(REPLACE(REPLACE(REPLACE(REPLACE(<concat>,
'.', ' '), '/', ' '), '-', ' '), '_', ' '), ':', ' '), '//', ' ')` —
the innermost replacement is `'.'`, the outermost is the digraph `'//'`. -/
def searchText (l : Link) : String :=
  strReplace "//" " "
    (strReplace ":" " "
      (strReplace "_" " "
        (strReplace "-" " "
          (strReplace "/" " "
            (strReplace "." " " (searchConcat l))))))

/-- The five separator characters named by the spec. -/
def sepChars : List Char := ['.', '/', '-', '_', ':']

/-- The `search_text` projection as the specification words it: each of
the separator characters `.`, `/`, `-`, `_`, `:` **and the digraph `//`**
is replaced by a single space (the digraph rule, to mean anything at all,
must take precedence over the single-character `/` rule on `//`
occurrences).  Written from the spec for comparison with `searchText`,
which is written from the source. -/
def specReplaceSeps : List Char → List Char
  | [] => []
  | '/' :: '/' :: rest => ' ' :: specReplaceSeps rest
  | c :: rest =>
    if c ∈ sepChars then ' ' :: specReplaceSeps rest
    else c :: specReplaceSeps rest

/-- Spec-worded `search_text` (see `specReplaceSeps`). -/
def specSearchText (l : Link) : String :=
  ⟨specReplaceSeps (searchConcat l).data⟩

/-- Substitution of a single character by a space. -/
def substChar (t : Char) (c : Char) : Char := if c = t then ' ' else c

theorem replaceAll_single (t : Char) (s : List Char) :
    replaceAll [t] [' '] s = s.map (substChar t) := by
  induction s with
  | nil => simp [replaceAll]
  | cons c rest ih =>
    rw [replaceAll]
    by_cases hc : c = t
    · subst hc
      rw [dif_pos]
      · simp [ih, substChar]
      · exact ⟨by simp, by simp [List.isPrefixOf]⟩
    · rw [dif_neg]
      · simp [ih, substChar, hc]
      · intro ⟨_, hpre⟩
        simp [List.isPrefixOf] at hpre
        exact hc hpre.symm

theorem replaceAll_not_mem (pat rep : List Char) (c : Char) (hc : c ∈ pat) :
    ∀ s : List Char, c ∉ s → replaceAll pat rep s = s := by
  intro s
  induction s with
  | nil => intro _; simp [replaceAll]
  | cons a rest ih =>
    intro hs
    rw [replaceAll, dif_neg]
    · rw [ih (fun h => hs (List.mem_cons_of_mem a h))]
    · intro ⟨_, hpre⟩
      have : pat ⊆ a :: rest := (List.isPrefixOf_iff_prefix.mp hpre).subset
      exact hs (this hc)

/-! ## C1: the `search_text` invariant -/

/-- Concrete document refuting C1: a URL containing `//`. -/
def c1Doc : Link := { id := 0, url := "a//b" }

theorem substChar_chain (s : List Char) :
    ((((s.map (substChar '.')).map (substChar '/')).map (substChar '-')).map
        (substChar '_')).map (substChar ':') =
      s.map (fun c => if c ∈ sepChars then ' ' else c) := by
  simp only [List.map_map]
  apply List.map_congr_left
  intro c _
  simp only [Function.comp, substChar, sepChars]
  by_cases h1 : c = '.' <;> by_cases h2 : c = '/' <;> by_cases h3 : c = '-' <;>
    by_cases h4 : c = '_' <;> by_cases h5 : c = ':' <;> simp_all

theorem slash_not_mem_sepMapped (s : List Char) :
    '/' ∉ s.map (fun c => if c ∈ sepChars then ' ' else c) := by
  intro hmem
  simp only [List.mem_map] at hmem
  obtain ⟨c, _, hc⟩ := hmem
  by_cases h : c ∈ sepChars
  · rw [if_pos h] at hc; exact absurd hc (by decide)
  · rw [if_neg h] at hc; subst hc; exact h (by simp [sepChars])

/-- **C1, amended.**  For every document, `search_text` equals the
concatenation of `url, title, description, content, notes` (null fields
contributing empty strings, fields joined by single spaces) in which each
of the five separator characters `.`, `/`, `-`, `_`, `:` is replaced by a
single space; the trailing `'//'` replacement of the source is inert
(by the time it runs no `//` remains), so a `//` in a source field
becomes two spaces. -/
theorem c1_search_text_amended (l : Link) :
    (searchText l).data =
      (searchConcat l).data.map (fun c => if c ∈ sepChars then ' ' else c) := by
  show (replaceAll ['/', '/'] [' ']
      (replaceAll [':'] [' ']
        (replaceAll ['_'] [' ']
          (replaceAll ['-'] [' ']
            (replaceAll ['/'] [' ']
              (replaceAll ['.'] [' '] (searchConcat l).data)))))) = _
  rw [replaceAll_single, replaceAll_single, replaceAll_single,
    replaceAll_single, replaceAll_single, substChar_chain]
  exact replaceAll_not_mem ['/', '/'] [' '] '/' (by simp) _
    (slash_not_mem_sepMapped _)

/-- **C1, counterexample.**  The claim — each separator character *and*
the digraph `//` replaced by a single space — fails on the stored
projection: in the generated column the single-character `'/'`
replacement runs before the `'//'` replacement, so no `//` survives to
be replaced and each `//` becomes **two** spaces, not one.  On the
document with `url = "a//b"` (all other fields null) the code stores
`"a  b    "` while the spec's wording yields `"a b    "`. -/
theorem c1_search_text_counterexample : searchText c1Doc ≠ specSearchText c1Doc := by
  intro h
  have h1 := c1_search_text_amended c1Doc
  rw [h] at h1
  revert h1
  decide

/-! ## Insertion sort (model of SQL ORDER BY; ties in unspecified order) -/

def insertBy (le : α → α → Bool) (a : α) : List α → List α
  | [] => [a]
  | b :: l => if le a b then a :: b :: l else b :: insertBy le a l

def sortBy (le : α → α → Bool) : List α → List α
  | [] => []
  | a :: l => insertBy le a (sortBy le l)

theorem mem_insertBy (le : α → α → Bool) (a x : α) :
    ∀ l : List α, x ∈ insertBy le a l ↔ x = a ∨ x ∈ l := by
  intro l
  induction l with
  | nil => simp [insertBy]
  | cons b l ih =>
    simp only [insertBy]
    split
    · simp [List.mem_cons]
    · simp only [List.mem_cons, ih]
      tauto

theorem mem_sortBy (le : α → α → Bool) (x : α) :
    ∀ l : List α, x ∈ sortBy le l ↔ x ∈ l := by
  intro l
  induction l with
  | nil => simp [sortBy]
  | cons a l ih => simp [sortBy, mem_insertBy, ih]

theorem pairwise_insertBy (le : α → α → Bool)
    (htot : ∀ a b, le a b = true ∨ le b a = true)
    (htrans : ∀ a b c, le a b = true → le b c = true → le a c = true) (a : α) :
    ∀ l : List α, List.Pairwise (fun x y => le x y = true) l →
      List.Pairwise (fun x y => le x y = true) (insertBy le a l) := by
  intro l
  induction l with
  | nil => intro _; simp [insertBy]
  | cons b l ih =>
    intro hp
    rw [List.pairwise_cons] at hp
    simp only [insertBy]
    split
    · next hab =>
      rw [List.pairwise_cons]
      refine ⟨?_, List.pairwise_cons.mpr hp⟩
      intro x hx
      rcases List.mem_cons.mp hx with rfl | hx
      · exact hab
      · exact htrans a b x hab (hp.1 x hx)
    · next hab =>
      rw [List.pairwise_cons]
      constructor
      · intro x hx
        rcases (mem_insertBy le a x l).mp hx with rfl | hx
        · rcases htot x b with h | h
          · exact absurd h hab
          · exact h
        · exact hp.1 x hx
      · exact ih hp.2

theorem pairwise_sortBy (le : α → α → Bool)
    (htot : ∀ a b, le a b = true ∨ le b a = true)
    (htrans : ∀ a b c, le a b = true → le b c = true → le a c = true) :
    ∀ l : List α, List.Pairwise (fun x y => le x y = true) (sortBy le l) := by
  intro l
  induction l with
  | nil => simp [sortBy]
  | cons a l ih => exact pairwise_insertBy le htot htrans a (sortBy le l) ih

/-! ## The three search operations (`db_search`, `db_vector_search`,
`db_hybrid_search`)

The BM25 score `search_text <@> to_bm25query(query, ...)` and the cosine
distance `embedding <=> ai.openai_embed(..., query)::vector(1536)` are
computed by database extensions outside this repository; they appear as
function parameters `bm25 : String → String → ℚ` (query, search_text ↦
score; negative = match) and `dist : String → String → ℚ` (query,
embedding snapshot ↦ distance). -/

/-- `(http_status IS NULL OR http_status < 400)`. -/
def statusOk (l : Link) : Bool :=
  match l.httpStatus with
  | none => true
  | some s => decide (s < 400)

/-- The WHERE clause of `db_search` (both the COUNT and the row query):
`score < 0 AND (http_status IS NULL OR http_status < 400) AND hidden = FALSE`. -/
def textFilter (bm25 : String → String → ℚ) (q : String) (l : Link) : Bool :=
  decide (bm25 q (searchText l) < 0) && statusOk l && !l.hidden

/-- A row returned by `db_search` (timestamps elided). -/
structure SearchRow where
  url : String
  title : Option String
  description : Option String
  score : ℚ
deriving DecidableEq, Repr

/-- `db_search(query, limit, offset)`: BM25 full-text search.  Returns
`(results, total_count)`; rows ordered by score ascending (BM25 scores are
negative, lower = better), paginated by `LIMIT limit OFFSET offset`; the
exposed score is `abs(score)`. -/
def dbSearch (bm25 : String → String → ℚ) (q : String) (db : List Link)
    (limit offset : Nat) : List SearchRow × Nat :=
  let matched := db.filter (textFilter bm25 q)
  let sorted := sortBy
    (fun a b => decide (bm25 q (searchText a) ≤ bm25 q (searchText b))) matched
  (((sorted.drop offset).take limit).map (fun l =>
      { url := l.url, title := l.title, description := l.description,
        score := |bm25 q (searchText l)| }),
    matched.length)

/-- The cosine distance of a document's embedding to the query embedding
(meaningful only when the embedding is present). -/
def embDist (dist : String → String → ℚ) (q : String) (l : Link) : ℚ :=
  (l.embedding.map (dist q)).getD 0

/-- The WHERE clause of `db_vector_search`: `embedding IS NOT NULL AND
embedding <=> vec <= max_distance AND (http_status IS NULL OR
http_status < 400) AND hidden = FALSE`. -/
def vecFilter (dist : String → String → ℚ) (q : String) (maxDist : ℚ)
    (l : Link) : Bool :=
  l.embedding.isSome && decide (embDist dist q l ≤ maxDist) && statusOk l && !l.hidden

/-- A row returned by `db_vector_search`. -/
structure VecRow where
  url : String
  title : Option String
  description : Option String
  distance : ℚ
deriving DecidableEq, Repr

/-- `db_vector_search(query, limit, offset, max_distance)`: dense search,
ordered by ascending distance.  (The `RuntimeError` raised when the
`embedding` column is missing is outside the model; the model covers the
successful path, where the column exists.) -/
def dbVectorSearch (dist : String → String → ℚ) (q : String) (db : List Link)
    (limit offset : Nat) (maxDist : ℚ) : List VecRow × Nat :=
  let matched := db.filter (vecFilter dist q maxDist)
  let sorted := sortBy (fun a b => decide (embDist dist q a ≤ embDist dist q b)) matched
  (((sorted.drop offset).take limit).map (fun l =>
      { url := l.url, title := l.title, description := l.description,
        distance := embDist dist q l }),
    matched.length)

/-- 1-based rank assignment, modeling `ROW_NUMBER() OVER (ORDER BY ...)`
on an already sorted list. -/
def withRanksFrom (n : Nat) : List α → List (α × Nat)
  | [] => []
  | a :: l => (a, n) :: withRanksFrom (n + 1) l

/-- The `vector_search` CTE of `db_hybrid_search`: top 20 by embedding
distance among non-hidden, non-error documents with an embedding, with
their `ROW_NUMBER()` ranks. -/
def vectorCands (dist : String → String → ℚ) (q : String) (db : List Link) :
    List (Link × Nat) :=
  withRanksFrom 1
    ((sortBy (fun a b => decide (embDist dist q a ≤ embDist dist q b))
        (db.filter (fun l => l.embedding.isSome && statusOk l && !l.hidden))).take 20)

/-- The `keyword_search` CTE of `db_hybrid_search`: top 20 by BM25 score
among matching, non-hidden, non-error documents, with ranks. -/
def keywordCands (bm25 : String → String → ℚ) (q : String) (db : List Link) :
    List (Link × Nat) :=
  withRanksFrom 1
    ((sortBy (fun a b => decide (bm25 q (searchText a) ≤ bm25 q (searchText b)))
        (db.filter (textFilter bm25 q))).take 20)

/-- `LEFT JOIN ... ON l.id = v.id`: the rank of a document within a
candidate list, `none` when absent (SQL `NULL`). -/
def rankOf (cands : List (Link × Nat)) (l : Link) : Option Nat :=
  (cands.find? (fun p => p.1.id == l.id)).map (fun p => p.2)

/-- Weights and RRF constants of `db_hybrid_search` (defaults
`keyword_weight = vector_weight = 0.5`, `rrf_k = 60`,
`min_score = 0.005`). -/
structure RRFParams where
  kw : ℚ := 1/2
  vw : ℚ := 1/2
  rrfK : ℚ := 60
  minScore : ℚ := 1/200
deriving DecidableEq, Repr

/-- `COALESCE(1.0 / (rrf_k + rank), 0.0)`: SQL `NULL` rank propagates to a
`NULL` quotient, coalesced to 0. -/
def rrfTerm (rrfK : ℚ) : Option Nat → ℚ
  | some r => 1 / (rrfK + r)
  | none => 0

/-- A row returned by `db_hybrid_search` (`url, title, description,
vector_rank, keyword_rank, rrf_score`; timestamps elided). -/
structure HybridRow where
  url : String
  title : Option String
  description : Option String
  vectorRank : Nat
  keywordRank : Nat
  rrfScore : ℚ
deriving DecidableEq, Repr

/-- One row of the `combined` CTE:
`COALESCE(v.rank, 999) AS vector_rank, COALESCE(k.rank, 999) AS keyword_rank,
vw * COALESCE(1.0/(k + v.rank), 0) + kw * COALESCE(1.0/(k + k.rank), 0) AS rrf_score`. -/
def mkHybridRow (p : RRFParams) (vrank krank : Option Nat) (l : Link) : HybridRow :=
  { url := l.url, title := l.title, description := l.description,
    vectorRank := vrank.getD 999, keywordRank := krank.getD 999,
    rrfScore := p.vw * rrfTerm p.rrfK vrank + p.kw * rrfTerm p.rrfK krank }

/-- The `combined` CTE: every document of `links` that appears in at least
one of the two candidate lists (`WHERE v.id IS NOT NULL OR k.id IS NOT NULL`),
joined by id. -/
def hybridCombined (bm25 dist : String → String → ℚ) (q : String)
    (db : List Link) (p : RRFParams) : List HybridRow :=
  db.filterMap (fun l =>
    let vrank := rankOf (vectorCands dist q db) l
    let krank := rankOf (keywordCands bm25 q db) l
    if vrank.isSome || krank.isSome then some (mkHybridRow p vrank krank l)
    else none)

/-- `WHERE rrf_score >= min_score`. -/
def hybridFiltered (bm25 dist : String → String → ℚ) (q : String)
    (db : List Link) (p : RRFParams) : List HybridRow :=
  (hybridCombined bm25 dist q db p).filter (fun r => decide (p.minScore ≤ r.rrfScore))

/-- `ORDER BY rrf_score DESC`. -/
def hybridSorted (bm25 dist : String → String → ℚ) (q : String)
    (db : List Link) (p : RRFParams) : List HybridRow :=
  sortBy (fun a b => decide (b.rrfScore ≤ a.rrfScore))
    (hybridFiltered bm25 dist q db p)

/-- The two SQL statements of `db_hybrid_search` (rows with
`LIMIT limit OFFSET offset`, and the `COUNT(*)` of rows meeting
`min_score`), without the cache layer. -/
def dbHybridSearchRaw (bm25 dist : String → String → ℚ) (q : String)
    (db : List Link) (p : RRFParams) (limit offset : Nat) :
    List HybridRow × Nat :=
  (((hybridSorted bm25 dist q db p).drop offset).take limit,
    (hybridFiltered bm25 dist q db p).length)

/-! ## C2: hidden and error documents are excluded from all searches -/

/-- The filter common to all three searches: not hidden, and no 4xx/5xx
status. -/
def goodFilter (l : Link) : Bool := !l.hidden && statusOk l

theorem goodFilter_false_of_bad (l : Link)
    (hbad : l.hidden = true ∨ ∃ s, l.httpStatus = some s ∧ 400 ≤ s) :
    goodFilter l = false := by
  rcases hbad with h | ⟨s, hs, h400⟩
  · simp [goodFilter, h]
  · have hst : statusOk l = false := by
      simp only [statusOk, hs, decide_eq_false_iff_not, not_lt]
      omega
    simp [goodFilter, hst]

theorem textFilter_good (bm25 : String → String → ℚ) (q : String) (l : Link)
    (h : textFilter bm25 q l = true) : goodFilter l = true := by
  simp only [textFilter, Bool.and_eq_true] at h
  simp [goodFilter, h.1.2, h.2]

theorem vecFilter_good (dist : String → String → ℚ) (q : String) (maxDist : ℚ)
    (l : Link) (h : vecFilter dist q maxDist l = true) : goodFilter l = true := by
  simp only [vecFilter, Bool.and_eq_true] at h
  simp [goodFilter, h.1.2, h.2]

theorem length_filter_mono (p q : α → Bool) (l : List α)
    (h : ∀ a ∈ l, p a = true → q a = true) :
    (l.filter p).length ≤ (l.filter q).length := by
  induction l with
  | nil => simp
  | cons a l ih =>
    have ih' := ih (fun x hx => h x (List.mem_cons_of_mem a hx))
    by_cases hp : p a = true
    · rw [List.filter_cons_of_pos hp, List.filter_cons_of_pos (h a (List.mem_cons_self a l) hp)]
      simpa using ih'
    · rw [List.filter_cons_of_neg (by simpa using hp)]
      by_cases hq : q a = true
      · rw [List.filter_cons_of_pos hq]
        exact Nat.le_succ_of_le ih'
      · rw [List.filter_cons_of_neg (by simpa using hq)]
        exact ih'

theorem mem_withRanksFrom {p : α × Nat} :
    ∀ (n : Nat) (l : List α), p ∈ withRanksFrom n l → p.1 ∈ l := by
  intro n l
  induction l generalizing n with
  | nil => simp [withRanksFrom]
  | cons a l ih =>
    intro hp
    rcases List.mem_cons.mp hp with h | h
    · subst h; exact List.mem_cons_self a l
    · exact List.mem_cons_of_mem a (ih (n + 1) h)

/-- A document holding some rank in the vector candidate list satisfies
the candidate list's filter (given unique ids). -/
theorem rankOf_vector_good (dist : String → String → ℚ) (q : String)
    (db : List Link) (hid : (db.map Link.id).Nodup) (l : Link) (hl : l ∈ db)
    (h : (rankOf (vectorCands dist q db) l).isSome = true) :
    goodFilter l = true := by
  simp only [rankOf, Option.isSome_map'] at h
  obtain ⟨pr, hfind⟩ := Option.isSome_iff_exists.mp h
  have hmem := List.mem_of_find?_eq_some hfind
  have hpred := List.find?_some hfind
  have hcand : pr.1 ∈ (sortBy (fun a b => decide (embDist dist q a ≤ embDist dist q b))
      (db.filter (fun l => l.embedding.isSome && statusOk l && !l.hidden))).take 20 :=
    mem_withRanksFrom 1 _ hmem
  have hfil : pr.1 ∈ db.filter (fun l => l.embedding.isSome && statusOk l && !l.hidden) :=
    (mem_sortBy _ _ _).mp (List.take_subset _ _ hcand)
  rw [List.mem_filter] at hfil
  have hidq : pr.1.id = l.id := by simpa using hpred
  have : pr.1 = l := List.inj_on_of_nodup_map hid hfil.1 hl hidq
  rw [this] at hfil
  simp only [Bool.and_eq_true] at hfil
  simp [goodFilter, hfil.2.1.2, hfil.2.2]

/-- A document holding some rank in the keyword candidate list satisfies
the BM25 filter (given unique ids). -/
theorem rankOf_keyword_good (bm25 : String → String → ℚ) (q : String)
    (db : List Link) (hid : (db.map Link.id).Nodup) (l : Link) (hl : l ∈ db)
    (h : (rankOf (keywordCands bm25 q db) l).isSome = true) :
    goodFilter l = true := by
  simp only [rankOf, Option.isSome_map'] at h
  obtain ⟨pr, hfind⟩ := Option.isSome_iff_exists.mp h
  have hmem := List.mem_of_find?_eq_some hfind
  have hpred := List.find?_some hfind
  have hcand : pr.1 ∈ (sortBy
      (fun a b => decide (bm25 q (searchText a) ≤ bm25 q (searchText b)))
      (db.filter (textFilter bm25 q))).take 20 :=
    mem_withRanksFrom 1 _ hmem
  have hfil : pr.1 ∈ db.filter (textFilter bm25 q) :=
    (mem_sortBy _ _ _).mp (List.take_subset _ _ hcand)
  rw [List.mem_filter] at hfil
  have hidq : pr.1.id = l.id := by simpa using hpred
  have : pr.1 = l := List.inj_on_of_nodup_map hid hfil.1 hl hidq
  rw [this] at hfil
  exact textFilter_good bm25 q l hfil.2

/-- Every row of the hybrid `combined` CTE originates from a document of
the store that holds a rank in at least one candidate list. -/
theorem mem_hybridCombined (bm25 dist : String → String → ℚ) (q : String)
    (db : List Link) (p : RRFParams) (r : HybridRow)
    (h : r ∈ hybridCombined bm25 dist q db p) :
    ∃ x ∈ db,
      ((rankOf (vectorCands dist q db) x).isSome ||
        (rankOf (keywordCands bm25 q db) x).isSome) = true ∧
      r = mkHybridRow p (rankOf (vectorCands dist q db) x)
        (rankOf (keywordCands bm25 q db) x) x := by
  simp only [hybridCombined, List.mem_filterMap] at h
  obtain ⟨x, hx, hsome⟩ := h
  refine ⟨x, hx, ?_⟩
  by_cases hcond : ((rankOf (vectorCands dist q db) x).isSome ||
      (rankOf (keywordCands bm25 q db) x).isSome) = true
  · rw [if_pos hcond] at hsome
    exact ⟨hcond, (Option.some_inj.mp hsome).symm⟩
  · rw [if_neg hcond] at hsome
    exact absurd hsome (by simp)

theorem length_filterMap_if (c : α → Bool) (f : α → β) (l : List α) :
    (l.filterMap (fun a => if c a then some (f a) else none)).length =
      (l.filter c).length := by
  induction l with
  | nil => simp
  | cons a l ih =>
    by_cases h : c a = true
    · rw [List.filterMap_cons, List.filter_cons_of_pos h, if_pos h]
      simpa using ih
    · rw [List.filterMap_cons, List.filter_cons_of_neg (by simpa using h), if_neg h]
      exact ih

/-- **C2 (confirmed).**  For every query, limit, offset, max-distance and
RRF parameters, none of the three search operations returns a row whose
URL is that of a hidden document or of a document with `http_status ≥ 400`,
and the `total_count` returned by each operation never exceeds the number
of non-hidden, non-error documents (such documents are not counted).
The id/url uniqueness hypotheses are the table's PRIMARY KEY and UNIQUE
constraints. -/
theorem c2_searches_exclude_hidden_and_errors
    (bm25 dist : String → String → ℚ) (q : String) (db : List Link)
    (limit offset : Nat) (maxDist : ℚ) (p : RRFParams)
    (hid : (db.map Link.id).Nodup) (hurl : (db.map Link.url).Nodup)
    (l : Link) (hl : l ∈ db)
    (hbad : l.hidden = true ∨ ∃ s, l.httpStatus = some s ∧ 400 ≤ s) :
    ((∀ r ∈ (dbSearch bm25 q db limit offset).1, r.url ≠ l.url) ∧
      (∀ r ∈ (dbVectorSearch dist q db limit offset maxDist).1, r.url ≠ l.url) ∧
      (∀ r ∈ (dbHybridSearchRaw bm25 dist q db p limit offset).1, r.url ≠ l.url)) ∧
    ((dbSearch bm25 q db limit offset).2 ≤ (db.filter goodFilter).length ∧
      (dbVectorSearch dist q db limit offset maxDist).2 ≤ (db.filter goodFilter).length ∧
      (dbHybridSearchRaw bm25 dist q db p limit offset).2 ≤
        (db.filter goodFilter).length) := by
  have hgood : goodFilter l = false := goodFilter_false_of_bad l hbad
  constructor
  · refine ⟨?_, ?_, ?_⟩
    · intro r hr hrl
      simp only [dbSearch, List.mem_map] at hr
      obtain ⟨x, hx, rfl⟩ := hr
      have hx' : x ∈ db.filter (textFilter bm25 q) :=
        (mem_sortBy _ _ _).mp (List.drop_subset _ _ (List.take_subset _ _ hx))
      rw [List.mem_filter] at hx'
      have hxl : x = l := List.inj_on_of_nodup_map hurl hx'.1 hl hrl
      rw [hxl] at hx'
      rw [textFilter_good bm25 q l hx'.2] at hgood
      exact Bool.true_eq_false.mp hgood
    · intro r hr hrl
      simp only [dbVectorSearch, List.mem_map] at hr
      obtain ⟨x, hx, rfl⟩ := hr
      have hx' : x ∈ db.filter (vecFilter dist q maxDist) :=
        (mem_sortBy _ _ _).mp (List.drop_subset _ _ (List.take_subset _ _ hx))
      rw [List.mem_filter] at hx'
      have hxl : x = l := List.inj_on_of_nodup_map hurl hx'.1 hl hrl
      rw [hxl] at hx'
      rw [vecFilter_good dist q maxDist l hx'.2] at hgood
      exact Bool.true_eq_false.mp hgood
    · intro r hr hrl
      have hrc : r ∈ hybridCombined bm25 dist q db p := by
        have h1 : r ∈ hybridSorted bm25 dist q db p :=
          List.drop_subset _ _ (List.take_subset _ _ hr)
        have h2 : r ∈ hybridFiltered bm25 dist q db p := (mem_sortBy _ _ _).mp h1
        exact (List.mem_filter.mp h2).1
      obtain ⟨x, hx, hcond, hreq⟩ := mem_hybridCombined bm25 dist q db p r hrc
      have hrurl : r.url = x.url := by rw [hreq]; rfl
      have hxl : x = l := List.inj_on_of_nodup_map hurl hx hl (hrurl ▸ hrl)
      rw [hxl] at hcond
      rcases Bool.or_eq_true_iff.mp hcond with hv | hk
      · rw [rankOf_vector_good dist q db hid l hl hv] at hgood
        exact Bool.true_eq_false.mp hgood
      · rw [rankOf_keyword_good bm25 q db hid l hl hk] at hgood
        exact Bool.true_eq_false.mp hgood
  · refine ⟨?_, ?_, ?_⟩
    · exact length_filter_mono _ _ db (fun a _ => textFilter_good bm25 q a)
    · exact length_filter_mono _ _ db (fun a _ => vecFilter_good dist q maxDist a)
    · show (hybridFiltered bm25 dist q db p).length ≤ _
      have h1 : (hybridFiltered bm25 dist q db p).length ≤
          (hybridCombined bm25 dist q db p).length :=
        List.length_filter_le _ _
      have h2 : (hybridCombined bm25 dist q db p).length =
          (db.filter (fun x => (rankOf (vectorCands dist q db) x).isSome ||
            (rankOf (keywordCands bm25 q db) x).isSome)).length :=
        length_filterMap_if _ _ db
      have h3 : (db.filter (fun x => (rankOf (vectorCands dist q db) x).isSome ||
          (rankOf (keywordCands bm25 q db) x).isSome)).length ≤
          (db.filter goodFilter).length := by
        apply length_filter_mono
        intro a ha hc
        rcases Bool.or_eq_true_iff.mp hc with hv | hk
        · exact rankOf_vector_good dist q db hid a ha hv
        · exact rankOf_keyword_good bm25 q db hid a ha hk
      omega

/-- **C2, witness.**  A store with one hidden document and one document
with `http_status = 404`: no search returns them and no count counts
them. -/
theorem c2_searches_exclude_hidden_and_errors_witness :
    (([{ id := 0, url := "h", hidden := true },
       { id := 1, url := "e", httpStatus := some 404 }] : List Link).map
        Link.id).Nodup ∧
    (∀ r ∈ (dbSearch (fun _ _ => -1) "q"
        [{ id := 0, url := "h", hidden := true },
         { id := 1, url := "e", httpStatus := some 404 }] 10 0).1,
      r.url ≠ "h") := by
  have h := c2_searches_exclude_hidden_and_errors (fun _ _ => -1) (fun _ _ => 0)
    "q" [{ id := 0, url := "h", hidden := true },
         { id := 1, url := "e", httpStatus := some 404 }]
    10 0 (8/10) {} (by decide) (by decide)
    { id := 0, url := "h", hidden := true } (by decide) (Or.inl rfl)
  exact ⟨by decide, h.1.1⟩

/-! ## C3: the RRF formula, threshold, ordering and rank sentinels -/

/-- **C3 (confirmed).**  Every row returned by `db_hybrid_search` (cache
aside) carries `vector_rank` / `keyword_rank` equal to its rank in the
top-20 dense / lexical candidate list with sentinel 999 when absent, and
an `rrf_score` equal to
`kw · 1/(rrf_k + keyword_rank) + vw · 1/(rrf_k + vector_rank)` with a
missing rank contributing 0 to its term; rows below `min_score` are
dropped and rows at or above it are kept (before pagination); the
returned rows are ordered by descending `rrf_score`. -/
theorem c3_hybrid_rrf_formula_and_order
    (bm25 dist : String → String → ℚ) (q : String) (db : List Link)
    (p : RRFParams) (limit offset : Nat) :
    (∀ r ∈ (dbHybridSearchRaw bm25 dist q db p limit offset).1,
      (∃ x ∈ db,
        r.url = x.url ∧
        r.vectorRank = (rankOf (vectorCands dist q db) x).getD 999 ∧
        r.keywordRank = (rankOf (keywordCands bm25 q db) x).getD 999 ∧
        r.rrfScore = p.kw * rrfTerm p.rrfK (rankOf (keywordCands bm25 q db) x) +
          p.vw * rrfTerm p.rrfK (rankOf (vectorCands dist q db) x) ∧
        ((rankOf (vectorCands dist q db) x).isSome = true ∨
          (rankOf (keywordCands bm25 q db) x).isSome = true)) ∧
      p.minScore ≤ r.rrfScore) ∧
    (∀ c ∈ hybridCombined bm25 dist q db p, p.minScore ≤ c.rrfScore →
      c ∈ hybridSorted bm25 dist q db p) ∧
    List.Pairwise (fun a b : HybridRow => b.rrfScore ≤ a.rrfScore)
      (dbHybridSearchRaw bm25 dist q db p limit offset).1 := by
  refine ⟨?_, ?_, ?_⟩
  · intro r hr
    have h1 : r ∈ hybridSorted bm25 dist q db p :=
      List.drop_subset _ _ (List.take_subset _ _ hr)
    have h2 : r ∈ hybridFiltered bm25 dist q db p := (mem_sortBy _ _ _).mp h1
    have h3 := List.mem_filter.mp h2
    refine ⟨?_, of_decide_eq_true h3.2⟩
    obtain ⟨x, hx, hcond, hreq⟩ := mem_hybridCombined bm25 dist q db p r h3.1
    refine ⟨x, hx, ?_, ?_, ?_, ?_, ?_⟩
    · rw [hreq]; rfl
    · rw [hreq]; rfl
    · rw [hreq]; rfl
    · rw [hreq]
      simp only [mkHybridRow]
      ring
    · rcases Bool.or_eq_true_iff.mp hcond with h | h
      · exact Or.inl h
      · exact Or.inr h
  · intro c hc hsc
    exact (mem_sortBy _ _ _).mpr (List.mem_filter.mpr ⟨hc, decide_eq_true hsc⟩)
  · have htot : ∀ a b : HybridRow,
        decide (b.rrfScore ≤ a.rrfScore) = true ∨
        decide (a.rrfScore ≤ b.rrfScore) = true := by
      intro a b
      rcases le_total b.rrfScore a.rrfScore with h | h
      · exact Or.inl (decide_eq_true h)
      · exact Or.inr (decide_eq_true h)
    have htrans : ∀ a b c : HybridRow,
        decide (b.rrfScore ≤ a.rrfScore) = true →
        decide (c.rrfScore ≤ b.rrfScore) = true →
        decide (c.rrfScore ≤ a.rrfScore) = true := by
      intro a b c h1 h2
      exact decide_eq_true (le_trans (of_decide_eq_true h2) (of_decide_eq_true h1))
    have hp := pairwise_sortBy (fun a b : HybridRow => decide (b.rrfScore ≤ a.rrfScore))
      htot htrans (hybridFiltered bm25 dist q db p)
    have hp' : List.Pairwise (fun a b : HybridRow => b.rrfScore ≤ a.rrfScore)
        (hybridSorted bm25 dist q db p) :=
      hp.imp (fun h => of_decide_eq_true h)
    exact hp'.sublist ((List.take_sublist _ _).trans (List.drop_sublist _ _))

/-! ## `db_update_crawl_data` (C5, C6) -/

/-- The crawl-result arguments of `db_update_crawl_data(url, title,
description, content, http_status, crawl_error)`. -/
structure CrawlArgs where
  title : Option String := none
  description : Option String := none
  content : Option String := none
  httpStatus : Option Int := none
  crawlError : Option String := none
deriving DecidableEq, Repr

/-- `content_changed = content is not None and content != old_content`
(Python `!=` between a string and `None` is `True`, so with `content`
known non-`None` the comparison is plain `Option` inequality). -/
def contentChanged (a : CrawlArgs) (l : Link) : Bool :=
  a.content.isSome && decide (a.content ≠ l.content)

/-- The UPDATE of `db_update_crawl_data` on the matched row.  On the
changed path (content changed and the embedding column present):
`title = COALESCE(new, title), description = COALESCE(new, description),
content = new, http_status/crawl_error overwritten, embedding = NULL`.
Otherwise the same with `content = COALESCE(new, content)` and the
embedding left untouched.  (`crawled_at`/`updated_at := NOW()` elided
with the timestamps.) -/
def crawlUpdateDoc (hasEmb : Bool) (a : CrawlArgs) (l : Link) : Link :=
  if contentChanged a l && hasEmb then
    { l with
      title := a.title.or l.title
      description := a.description.or l.description
      content := a.content
      httpStatus := a.httpStatus
      crawlError := a.crawlError
      embedding := none }
  else
    { l with
      title := a.title.or l.title
      description := a.description.or l.description
      content := a.content.or l.content
      httpStatus := a.httpStatus
      crawlError := a.crawlError }

/-- `db_update_crawl_data(url, ...) → (db', updated, content_changed)`:
looks the URL up; unknown URL returns `(false, false)` and leaves the
store unchanged; otherwise updates the row and reports
`(rowcount > 0, content_changed)`. -/
def dbUpdateCrawlData (hasEmb : Bool) (url : String) (a : CrawlArgs)
    (db : List Link) : List Link × Bool × Bool :=
  match db.find? (fun l => l.url == url) with
  | none => (db, false, false)
  | some l =>
    (db.map (fun x => if x.url == url then crawlUpdateDoc hasEmb a x else x),
      true, contentChanged a l)

/-- `search_text` only reads the five text fields, so two documents whose
concatenation agrees have the same `search_text`. -/
theorem searchText_congr (l1 l2 : Link) (h : searchConcat l1 = searchConcat l2) :
    searchText l1 = searchText l2 := by
  unfold searchText
  rw [h]

/-! ## C6: the `content_changed` flag -/

/-- Concrete document refuting C6: stored content `"x"`. -/
def c6Doc : Link := { id := 0, url := "u", content := some "x" }

/-- **C6, counterexample.**  With stored content `"x"` and provided
content null, the provided value differs from the prior one, yet the
returned `content_changed` flag is `false`: the code requires
`content is not None` before comparing, so a null provided content never
counts as changed. -/
theorem c6_content_changed_counterexample :
    (dbUpdateCrawlData true "u" {} [c6Doc]).2.2 = false ∧
      (none : Option String) ≠ some "x" := by
  constructor
  · rfl
  · decide

/-- **C6, amended.**  For a URL present in the store, `crawl_update`
returns `content_changed = (provided_content is non-null ∧
provided_content ≠ prior stored content)` — a null provided content never
counts as changed; for a URL not present it returns `(false, false)` and
leaves the store unchanged. -/
theorem c6_content_changed_amended (hasEmb : Bool) (url : String)
    (a : CrawlArgs) (db : List Link) :
    (∀ l, db.find? (fun x => x.url == url) = some l →
      (dbUpdateCrawlData hasEmb url a db).2.1 = true ∧
      (dbUpdateCrawlData hasEmb url a db).2.2 =
        (a.content.isSome && decide (a.content ≠ l.content))) ∧
    (db.find? (fun x => x.url == url) = none →
      dbUpdateCrawlData hasEmb url a db = (db, false, false)) := by
  constructor
  · intro l hfind
    unfold dbUpdateCrawlData
    rw [hfind]
    exact ⟨rfl, rfl⟩
  · intro hfind
    unfold dbUpdateCrawlData
    rw [hfind]

/-- **C6, amended, witness.**  Updating stored content `"x"` with
provided content `"y"` reports `content_changed = true`. -/
theorem c6_content_changed_amended_witness :
    (dbUpdateCrawlData true "u" { content := some "y" } [c6Doc]).2.2 = true := by
  have h := (c6_content_changed_amended true "u" { content := some "y" } [c6Doc]).1
    c6Doc (by decide)
  exact h.2.trans (by decide)

/-! ## C5: embedding clearing and staleness -/

/-- Base of the C5 counterexample: content `"c"`, no title. -/
def c5Base : Link := { id := 0, url := "u", content := some "c" }

/-- The C5 document: its embedding was generated from its current
`search_text` (the freshness invariant holds before the update). -/
def c5Doc : Link := { c5Base with embedding := some (searchText c5Base) }

/-- A crawl result with an unchanged content but a new title. -/
def c5Args : CrawlArgs := { title := some "t", content := some "c" }

/-- **C5, counterexample.**  A `crawl_update` whose content is unchanged
but whose title is new keeps the embedding (per the code) while changing
`search_text` — so after the update the embedding is present yet its
generation snapshot differs from the document's current `search_text`;
the claimed invariant fails. -/
theorem c5_embedding_staleness_counterexample :
    (crawlUpdateDoc true c5Args c5Doc).embedding = some (searchText c5Base) ∧
      searchText c5Base ≠ searchText (crawlUpdateDoc true c5Args c5Doc) := by
  constructor
  · rfl
  · intro h
    have h1 := c1_search_text_amended c5Base
    have h2 := c1_search_text_amended (crawlUpdateDoc true c5Args c5Doc)
    rw [h, h2] at h1
    revert h1
    decide

/-- **C5, amended.**  With the embedding column present: `crawl_update`
clears the embedding iff the provided content is non-null and differs
from the prior stored content (`content_changed`), and leaves it
untouched otherwise; the freshness invariant "embedding present ⇒
generated from a snapshot equal to the current `search_text`" is
preserved only for title-less and description-less crawl results (a
title or description change with unchanged content leaves a stale
embedding, as the counterexample shows). -/
theorem c5_crawl_update_embedding (a : CrawlArgs) (l : Link) :
    (contentChanged a l = true → (crawlUpdateDoc true a l).embedding = none) ∧
    (contentChanged a l = false →
      (crawlUpdateDoc true a l).embedding = l.embedding) ∧
    (a.title = none → a.description = none →
      (∀ s, l.embedding = some s → s = searchText l) →
      ∀ s, (crawlUpdateDoc true a l).embedding = some s →
        s = searchText (crawlUpdateDoc true a l)) := by
  refine ⟨?_, ?_, ?_⟩
  · intro h
    unfold crawlUpdateDoc
    rw [if_pos (by simp [h])]
  · intro h
    unfold crawlUpdateDoc
    rw [if_neg (by simp [h])]
  · intro hti hde hinv s hs
    by_cases hch : contentChanged a l = true
    · rw [(by unfold crawlUpdateDoc; rw [if_pos (by simp [hch])] :
        (crawlUpdateDoc true a l).embedding = none)] at hs
      exact absurd hs (by simp)
    · have hl : crawlUpdateDoc true a l =
          { l with
            title := a.title.or l.title
            description := a.description.or l.description
            content := a.content.or l.content
            httpStatus := a.httpStatus
            crawlError := a.crawlError } := by
        unfold crawlUpdateDoc
        rw [if_neg (by simp [hch])]
      have hemb : (crawlUpdateDoc true a l).embedding = l.embedding := by
        rw [hl]
      have hcontent : a.content.or l.content = l.content := by
        rcases ha : a.content with _ | c
        · rfl
        · have heq : a.content = l.content := by
            by_contra hne
            exact hch (by simp [contentChanged, ha, ha ▸ hne])
          rw [← ha, heq]
          cases l.content <;> rfl
      have htitle : a.title.or l.title = l.title := by
        rw [hti]; cases l.title <;> rfl
      have hdesc : a.description.or l.description = l.description := by
        rw [hde]; cases l.description <;> rfl
      have hst : searchText (crawlUpdateDoc true a l) = searchText l := by
        apply searchText_congr
        rw [hl]
        simp only [searchConcat]
        rw [htitle, hdesc, hcontent]
      rw [hemb] at hs
      rw [hst]
      exact hinv s hs

/-- **C5, amended, witness.**  A title-less crawl result with unchanged
content keeps the embedding and preserves the freshness invariant. -/
theorem c5_crawl_update_embedding_witness :
    (crawlUpdateDoc true { content := some "c" } c5Doc).embedding =
        c5Doc.embedding ∧
      ∀ s, (crawlUpdateDoc true { content := some "c" } c5Doc).embedding =
          some s →
        s = searchText (crawlUpdateDoc true { content := some "c" } c5Doc) := by
  refine ⟨(c5_crawl_update_embedding { content := some "c" } c5Doc).2.1 rfl, ?_⟩
  exact (c5_crawl_update_embedding { content := some "c" } c5Doc).2.2 rfl rfl
    (fun s hs => by
      have : s = searchText c5Base := by
        have := hs
        simp only [c5Doc] at this
        exact (Option.some_inj.mp this).symm
      rw [this]
      rfl)

/-! ## C8: `db_remove_links_pattern` and glob semantics -/

/-- SQL `LIKE` matching (Postgres semantics): `%` matches any possibly
empty run, `_` matches exactly one character, a backslash escapes the
next character, and every other character matches itself.  A pattern
ending in a lone escape character is a Postgres error, modeled as no
match. -/
def likeMatch : List Char → List Char → Bool
  | [], s => s.isEmpty
  | '%' :: p, s => (List.range (s.length + 1)).any (fun k => likeMatch p (s.drop k))
  | '_' :: p, s =>
    match s with
    | [] => false
    | _ :: s => likeMatch p s
  | ['\\'], _ => false
  | '\\' :: c :: p, s =>
    match s with
    | [] => false
    | d :: s => d == c && likeMatch p s
  | c :: p, s =>
    match s with
    | [] => false
    | d :: s => d == c && likeMatch p s

/-- Glob matching as the claim and the docstring of
`db_remove_links_pattern` define it: `*` matches any possibly empty run,
`?` matches exactly one character, and **every** other character —
including `%`, `_` and `\` — matches only itself. -/
def globMatch : List Char → List Char → Bool
  | [], s => s.isEmpty
  | '*' :: p, s => (List.range (s.length + 1)).any (fun k => globMatch p (s.drop k))
  | '?' :: p, s =>
    match s with
    | [] => false
    | _ :: s => globMatch p s
  | c :: p, s =>
    match s with
    | [] => false
    | d :: s => d == c && globMatch p s

/-- `like_pattern = pattern.replace("*", "%").replace("?", "_")` — the
glob-to-LIKE translation of `db_remove_links_pattern`.  Pre-existing `%`,
`_` and `\` characters of the user pattern are **not** escaped. -/
def globToLike (pat : String) : String :=
  ⟨(pat.data.map (fun c => if c = '*' then '%' else c)).map
      (fun c => if c = '?' then '_' else c)⟩

/-- `db_remove_links_pattern(pattern) → (removed_urls, db')`: selects the
URLs matching the translated LIKE pattern, deletes them when the list is
non-empty, and returns the list. -/
def dbRemoveLinksPattern (pat : String) (db : List Link) :
    List String × List Link :=
  let urls := (db.filter (fun l => likeMatch (globToLike pat).data l.url.data)).map
    Link.url
  (urls,
    if urls.isEmpty then db
    else db.filter (fun l => !likeMatch (globToLike pat).data l.url.data))

/-- The store refuting C8: two URLs, one containing a literal underscore. -/
def c8Db : List Link := [{ id := 0, url := "a_b" }, { id := 1, url := "axb" }]

/-- **C8 (code bug, failing input).**  On pattern `"a_b"` over the URLs
`"a_b"` and `"axb"`: under the claimed glob semantics only `"a_b"`
matches (`_` is a literal), but the code translates the pattern to LIKE
`"a_b"` without escaping the pre-existing `_`, which the LIKE matcher
treats as an any-one-character wildcard — so `db_remove_links_pattern`
removes **both** URLs.  The spec's design note ("implementers must escape
store-level wildcards from user input before substitution") states the
intent; the code omits the escaping. -/
theorem c8_remove_glob_unescaped_wildcard :
    (dbRemoveLinksPattern "a_b" c8Db).1 = ["a_b", "axb"] ∧
      (dbRemoveLinksPattern "a_b" c8Db).2 = [] ∧
      globMatch "a_b".data "a_b".data = true ∧
      globMatch "a_b".data "axb".data = false := by
  refine ⟨?_, ?_, ?_, ?_⟩ <;> decide

/-! ## The search cache (`_compute_cache_key`, `db_cache_search`,
`db_get_cached_search`, `db_invalidate_search_cache`) -/

/-- Python `str.lower` on the ASCII range (queries; non-ASCII case
folding elided). -/
def pyLowerChar (c : Char) : Char :=
  if 'A' ≤ c ∧ c ≤ 'Z' then Char.ofNat (c.toNat + 32) else c

/-- Python `str.strip`'s whitespace set. -/
def pySpace (c : Char) : Bool :=
  c = ' ' || c = '\t' || c = '\n' || c = '\r' || c = '\x0b' || c = '\x0c'

/-- Python `str.strip()`: remove leading and trailing whitespace. -/
def pyStrip (s : List Char) : List Char :=
  ((s.dropWhile pySpace).reverse.dropWhile pySpace).reverse

/-- `_compute_cache_key(query, keyword_weight, vector_weight)`: the
normalized string `f"{query.lower().strip()}:{keyword_weight}:{vector_weight}"`,
with the weights contributing their Python `str(float)` representations.
The SHA-256 hex digest applied on top is modeled as the identity on the
normalized string: under collision-freeness of the hash, key equality
coincides with normalized-string equality. -/
def computeCacheKey (query kwRepr vwRepr : String) : String :=
  ⟨pyStrip (query.data.map pyLowerChar) ++ ':' :: kwRepr.data ++ ':' :: vwRepr.data⟩

/-- Right-pad-free fractional digit rendering: `fp` printed with `k`
digits (leading zeros), trailing zeros stripped, `"0"` when nothing
remains — Python's shortest fractional part. -/
def fracChars (k fp : Nat) : List Char :=
  let digits := Nat.toDigits 10 fp
  let padded := List.replicate (k - digits.length) '0' ++ digits
  let stripped := (padded.reverse.dropWhile (fun c => c = '0')).reverse
  if stripped.isEmpty then ['0'] else stripped

/-- Model of Python `str(float)` for nonnegative values that are
terminating decimals of at most 20 fractional digits (every weight the
system handles; Python renders such floats by their shortest decimal,
with a `.0` suffix on integral values). -/
def pyFloatReprNN (q : ℚ) : String :=
  let k := ((List.range 20).find? (fun k => (q * (10 : ℚ) ^ k).den = 1)).getD 19
  let m := (q * (10 : ℚ) ^ k).num.toNat
  ⟨Nat.toDigits 10 (m / 10 ^ k) ++ '.' :: fracChars k (m % 10 ^ k)⟩

/-- Model of Python `str(float)` (see `pyFloatReprNN`). -/
def pyFloatRepr (q : ℚ) : String :=
  if q < 0 then ⟨'-' :: (pyFloatReprNN (-q)).data⟩ else pyFloatReprNN q

/-- `NUMERIC(3,2)`-style rounding of a weight to two decimals (half away
from zero on the nonnegative weights at hand). -/
def round2 (q : ℚ) : ℚ := (⌊q * 100 + 1/2⌋ : ℤ) / 100

/-- A row of the `search_cache` table (`query_text` and `created_at`
elided; `keyword_weight`/`vector_weight` are `NUMERIC(3,2)` columns, so
they hold the 2-decimal roundings of the weights). -/
structure CacheEntry where
  queryHash : String
  kwWeight : ℚ
  vwWeight : ℚ
  results : List HybridRow
  totalCount : Nat
  expiresAt : Nat
deriving DecidableEq, Repr

/-- The `search_cache` table. -/
def Cache : Type := List CacheEntry

/-- `db_get_cached_search`: `SELECT results, total_count WHERE
query_hash = key AND keyword_weight = kw AND vector_weight = vw AND
expires_at > NOW()`.  The weight comparison is against the stored
2-decimal `NUMERIC` value. -/
def cacheGet (cache : Cache) (key : String) (kw vw : ℚ) (now : Nat) :
    Option (List HybridRow × Nat) :=
  (List.find? (fun e => e.queryHash == key && decide (e.kwWeight = kw) &&
      decide (e.vwWeight = vw) && decide (now < e.expiresAt)) cache).map
    (fun e => (e.results, e.totalCount))

/-- `db_cache_search`: upsert under the `(query_hash, keyword_weight,
vector_weight)` uniqueness constraint, with `expires_at = NOW() + ttl`. -/
def cachePut (cache : Cache) (key : String) (kw vw : ℚ)
    (results : List HybridRow) (total : Nat) (now ttl : Nat) : Cache :=
  { queryHash := key, kwWeight := round2 kw, vwWeight := round2 vw,
    results := results, totalCount := total, expiresAt := now + ttl } ::
    List.filter (fun e => !(e.queryHash == key && decide (e.kwWeight = round2 kw) &&
      decide (e.vwWeight = round2 vw))) cache

/-- `db_hybrid_search` with its cache layer: on `use_cache ∧ offset = 0`,
probe the cache and on a hit return the cached results truncated to
`limit`; on a miss run the two SQL statements (whose row query is
already paginated by `LIMIT limit OFFSET offset`) and write the rows
just returned, with the total count, to the cache. -/
def dbHybridSearch (bm25 dist : String → String → ℚ) (q : String)
    (db : List Link) (p : RRFParams) (limit offset : Nat) (useCache : Bool)
    (now ttl : Nat) (cache : Cache) : (List HybridRow × Nat) × Cache :=
  let key := computeCacheKey q (pyFloatRepr p.kw) (pyFloatRepr p.vw)
  if useCache && offset == 0 then
    match cacheGet cache key p.kw p.vw now with
    | some (results, total) => ((results.take limit, total), cache)
    | none =>
      let out := dbHybridSearchRaw bm25 dist q db p limit offset
      (out, cachePut cache key p.kw p.vw out.1 out.2 now ttl)
  else (dbHybridSearchRaw bm25 dist q db p limit offset, cache)

/-! ## C9: cache key equality -/

theorem strOfDataInj (s t : String) (h : s.data = t.data) : s = t := by
  cases s
  cases t
  exact congrArg String.mk h

theorem cons_colon_left_inj :
    ∀ (x y x' y' : List Char), ':' ∉ x → ':' ∉ x' →
      x ++ ':' :: y = x' ++ ':' :: y' → x = x' ∧ y = y' := by
  intro x
  induction x with
  | nil =>
    intro y x' y' _ hx' h
    cases x' with
    | nil => simpa using h
    | cons c t =>
      simp only [List.nil_append, List.cons_append, List.cons.injEq] at h
      have : ':' ∈ c :: t := by rw [← h.1]; exact List.mem_cons_self _ _
      exact absurd this hx'
  | cons c t ih =>
    intro y x' y' hx hx' h
    cases x' with
    | nil =>
      simp only [List.cons_append, List.nil_append, List.cons.injEq] at h
      have : ':' ∈ c :: t := by rw [h.1]; exact List.mem_cons_self _ _
      exact absurd this hx
    | cons c' t' =>
      simp only [List.cons_append, List.cons.injEq] at h
      have htail := ih y t' y'
        (fun hm => hx (List.mem_cons_of_mem c hm))
        (fun hm => hx' (List.mem_cons_of_mem c' hm)) h.2
      exact ⟨by rw [h.1, htail.1], htail.2⟩

theorem append_colon_right_inj (a b a' b' : List Char)
    (hb : ':' ∉ b) (hb' : ':' ∉ b')
    (h : a ++ ':' :: b = a' ++ ':' :: b') : a = a' ∧ b = b' := by
  have hrev : b.reverse ++ ':' :: a.reverse = b'.reverse ++ ':' :: a'.reverse := by
    have h2 := congrArg List.reverse h
    simpa [List.reverse_append] using h2
  have hsplit := cons_colon_left_inj b.reverse a.reverse b'.reverse a'.reverse
    (fun hm => hb (List.mem_reverse.mp hm))
    (fun hm => hb' (List.mem_reverse.mp hm)) hrev
  constructor
  · exact List.reverse_injective hsplit.2
  · exact List.reverse_injective hsplit.1

/-- **C9, amended.**  Two cache keys are equal iff the lowercased,
outer-trimmed query strings are equal **and the weights' full-precision
string representations are equal** — not their 2-decimal roundings (the
representation of a weight never contains a colon, which the hypotheses
record). -/
theorem c9_cache_key_amended (q1 q2 kw1 vw1 kw2 vw2 : String)
    (h1 : ':' ∉ kw1.data) (h2 : ':' ∉ vw1.data)
    (h3 : ':' ∉ kw2.data) (h4 : ':' ∉ vw2.data) :
    computeCacheKey q1 kw1 vw1 = computeCacheKey q2 kw2 vw2 ↔
      (pyStrip (q1.data.map pyLowerChar) = pyStrip (q2.data.map pyLowerChar) ∧
        kw1 = kw2 ∧ vw1 = vw2) := by
  constructor
  · intro h
    have hdata := congrArg String.data h
    simp only [computeCacheKey] at hdata
    have hsplit1 := append_colon_right_inj _ _ _ _ h2 h4 hdata
    have hsplit2 := append_colon_right_inj _ _ _ _ h1 h3 hsplit1.1
    exact ⟨hsplit2.1, strOfDataInj _ _ hsplit2.2, strOfDataInj _ _ hsplit1.2⟩
  · intro ⟨hq, hk, hv⟩
    simp only [computeCacheKey, hq, hk, hv]

/-- **C9, amended, witness.**  Case and outer whitespace of the query do
not affect the key: `" TeSt"` and `"test"` with equal weight
representations share a key. -/
theorem c9_cache_key_amended_witness :
    computeCacheKey " TeSt" "0.5" "0.5" = computeCacheKey "test" "0.5" "0.5" :=
  (c9_cache_key_amended " TeSt" "test" "0.5" "0.5" "0.5" "0.5"
    (by decide) (by decide) (by decide) (by decide)).mpr ⟨by decide, rfl, rfl⟩

/-- **C9, counterexample.**  `_compute_cache_key` interpolates the raw
`str(float)` of each weight, not a 2-decimal rounding: the weights
`0.505` and `0.51` are equal after rounding to two decimals (both round
to `0.51`, as the claim's own example asserts), yet the computed keys
differ (`"test:0.505:0.5"` vs `"test:0.51:0.5"`). -/
theorem c9_cache_key_counterexample :
    round2 (505/1000) = round2 (51/100) ∧
      computeCacheKey "test" (pyFloatRepr (505/1000)) (pyFloatRepr (1/2)) ≠
        computeCacheKey "test" (pyFloatRepr (51/100)) (pyFloatRepr (1/2)) := by
  constructor
  · with_unfolding_all decide
  · with_unfolding_all decide

/-! ## C4: the hybrid search cache stores the first page, not the full
result set -/

/-- **C4, amended.**  For a hybrid search with `offset = 0` and
`use_cache`: on a cache hit the cached entry is returned truncated to
`limit` with its cached total count and the cache is unchanged; on a
cache miss the **first page** (the result list already truncated to
`limit` by the query's `LIMIT`) together with `total_count` is written to
the cache — not the full unpaginated result set — so a subsequent query
under the same key within the TTL, with weights already at 2-decimal
precision, sees the same results for any `limit' ≤ limit` (a larger
`limit'` can see at most the cached `limit` rows). -/
theorem c4_hybrid_cache_first_page (bm25 dist : String → String → ℚ)
    (q : String) (db : List Link) (p : RRFParams) (limit now ttl : Nat)
    (cache : Cache) :
    (∀ results total,
      cacheGet cache (computeCacheKey q (pyFloatRepr p.kw) (pyFloatRepr p.vw))
          p.kw p.vw now = some (results, total) →
      dbHybridSearch bm25 dist q db p limit 0 true now ttl cache =
        ((results.take limit, total), cache)) ∧
    (cacheGet cache (computeCacheKey q (pyFloatRepr p.kw) (pyFloatRepr p.vw))
        p.kw p.vw now = none →
      dbHybridSearch bm25 dist q db p limit 0 true now ttl cache =
        (((hybridSorted bm25 dist q db p).take limit,
            (hybridFiltered bm25 dist q db p).length),
          cachePut cache
            (computeCacheKey q (pyFloatRepr p.kw) (pyFloatRepr p.vw))
            p.kw p.vw ((hybridSorted bm25 dist q db p).take limit)
            (hybridFiltered bm25 dist q db p).length now ttl) ∧
      (∀ limit' now', limit' ≤ limit → now' < now + ttl →
        round2 p.kw = p.kw → round2 p.vw = p.vw →
        (dbHybridSearch bm25 dist q db p limit' 0 true now' ttl
            (dbHybridSearch bm25 dist q db p limit 0 true now ttl cache).2).1 =
          ((hybridSorted bm25 dist q db p).take limit',
            (hybridFiltered bm25 dist q db p).length))) := by
  constructor
  · intro results total hhit
    simp only [dbHybridSearch, Bool.and_self, beq_self_eq_true, if_true, hhit]
  · intro hmiss
    have hmissEq : dbHybridSearch bm25 dist q db p limit 0 true now ttl cache =
        (((hybridSorted bm25 dist q db p).take limit,
            (hybridFiltered bm25 dist q db p).length),
          cachePut cache
            (computeCacheKey q (pyFloatRepr p.kw) (pyFloatRepr p.vw))
            p.kw p.vw ((hybridSorted bm25 dist q db p).take limit)
            (hybridFiltered bm25 dist q db p).length now ttl) := by
      simp only [dbHybridSearch, Bool.and_self, beq_self_eq_true, if_true, hmiss,
        dbHybridSearchRaw, List.drop_zero]
    refine ⟨hmissEq, ?_⟩
    intro limit' now' hlim hnow hkw hvw
    rw [hmissEq]
    have hget : cacheGet
        (cachePut cache (computeCacheKey q (pyFloatRepr p.kw) (pyFloatRepr p.vw))
          p.kw p.vw ((hybridSorted bm25 dist q db p).take limit)
          (hybridFiltered bm25 dist q db p).length now ttl)
        (computeCacheKey q (pyFloatRepr p.kw) (pyFloatRepr p.vw))
        p.kw p.vw now' =
        some ((hybridSorted bm25 dist q db p).take limit,
          (hybridFiltered bm25 dist q db p).length) := by
      simp only [cacheGet, cachePut, List.find?_cons, beq_self_eq_true, hkw, hvw,
        decide_eq_true_eq]
      simp [hnow]
    simp only [dbHybridSearch, Bool.and_self, beq_self_eq_true, if_true, hget]
    rw [List.take_take, Nat.min_eq_left hlim]

/-- The store of the C4 counterexample: two documents both matching the
query by BM25. -/
def c4Db : List Link := [{ id := 0, url := "u1" }, { id := 1, url := "u2" }]

/-- A BM25 scorer matching everything (score −1). -/
def c4bm25 : String → String → ℚ := fun _ _ => -1

/-- A distance function (irrelevant: no document has an embedding). -/
def c4dist : String → String → ℚ := fun _ _ => 0

/-- The cache key of query `"q"` with the default weights. -/
def c4key : String := computeCacheKey "q" (pyFloatRepr (1/2)) (pyFloatRepr (1/2))

/-- **C4, counterexample.**  On a cache miss with `limit = 1`,
`offset = 0` over a store whose full hybrid result set has two rows, the
cache entry written holds **one** row (the page that was just returned),
not the full unpaginated result set the claim requires. -/
theorem c4_cache_truncation_counterexample :
    (hybridSorted c4bm25 c4dist "q" c4Db {}).length = 2 ∧
      ((cacheGet (dbHybridSearch c4bm25 c4dist "q" c4Db {} 1 0 true 0 3600 []).2
          c4key (1/2) (1/2) 0).map (fun r => r.1.length)) = some 1 := by
  constructor
  · with_unfolding_all decide
  · with_unfolding_all decide

/-- **C4, amended, witness.**  Over `c4Db`: the first query (a miss on
the empty cache, `limit = 1`) caches its page; a second query one second
later with `limit' = 1` returns the same single row and total count 2. -/
theorem c4_hybrid_cache_first_page_witness :
    cacheGet ([] : Cache) c4key (1/2) (1/2) 0 = none ∧
      (dbHybridSearch c4bm25 c4dist "q" c4Db {} 1 0 true 1 3600
          (dbHybridSearch c4bm25 c4dist "q" c4Db {} 1 0 true 0 3600 []).2).1 =
        ((hybridSorted c4bm25 c4dist "q" c4Db {}).take 1,
          (hybridFiltered c4bm25 c4dist "q" c4Db {}).length) := by
  refine ⟨rfl, ?_⟩
  exact ((c4_hybrid_cache_first_page c4bm25 c4dist "q" c4Db {} 1 0 3600 []).2
    rfl).2 1 1 (le_refl 1) (by decide)
    (by with_unfolding_all decide) (by with_unfolding_all decide)

/-! ## C7: result-affecting store mutations empty the cache -/

/-- The store mutations of db.py that can affect search results:
`db_add_link`, `db_remove_link`, `db_delete_link_by_id`,
`db_remove_links_pattern`, `db_toggle_hidden`, `db_toggle_hidden_by_id`,
`db_update_crawl_data`. -/
inductive Mutation where
  | add (url : String) (newId : Nat)
  | removeUrl (url : String)
  | removeId (id : Nat)
  | removeGlob (pat : String)
  | toggleHidden (url : String)
  | toggleHiddenById (id : Nat)
  | crawlUpdate (hasEmb : Bool) (url : String) (a : CrawlArgs)

/-- The links table together with the search cache. -/
structure StoreState where
  db : List Link
  cache : Cache

/-- Each mutation as it commits and (conditionally) calls
`db_invalidate_search_cache()` — which deletes every row of
`search_cache` — before returning to its caller:

* `db_add_link`: invalidate after a successful INSERT; a
  `UniqueViolation` (url already present) inserts nothing and does not
  invalidate.
* `db_remove_link` / `db_delete_link_by_id`: invalidate iff
  `rowcount > 0`.
* `db_remove_links_pattern`: invalidate iff the matched url list is
  non-empty.
* `db_toggle_hidden` / `db_toggle_hidden_by_id`: invalidate iff a row
  was returned.
* `db_update_crawl_data`: invalidate iff `content_changed`. -/
def applyMutation : Mutation → StoreState → StoreState
  | .add url newId, s =>
    if s.db.any (fun l => l.url == url) then s
    else { db := s.db ++ [{ id := newId, url := url }], cache := [] }
  | .removeUrl url, s =>
    if s.db.any (fun l => l.url == url) then
      { db := s.db.filter (fun l => !(l.url == url)), cache := [] }
    else { db := s.db.filter (fun l => !(l.url == url)), cache := s.cache }
  | .removeId id, s =>
    if s.db.any (fun l => l.id == id) then
      { db := s.db.filter (fun l => !(l.id == id)), cache := [] }
    else { db := s.db.filter (fun l => !(l.id == id)), cache := s.cache }
  | .removeGlob pat, s =>
    if (dbRemoveLinksPattern pat s.db).1.isEmpty then
      { db := (dbRemoveLinksPattern pat s.db).2, cache := s.cache }
    else { db := (dbRemoveLinksPattern pat s.db).2, cache := [] }
  | .toggleHidden url, s =>
    if s.db.any (fun l => l.url == url) then
      { db := s.db.map (fun l => if l.url == url then { l with hidden := !l.hidden } else l),
        cache := [] }
    else s
  | .toggleHiddenById id, s =>
    if s.db.any (fun l => l.id == id) then
      { db := s.db.map (fun l => if l.id == id then { l with hidden := !l.hidden } else l),
        cache := [] }
    else s
  | .crawlUpdate hasEmb url a, s =>
    if (dbUpdateCrawlData hasEmb url a s.db).2.2 then
      { db := (dbUpdateCrawlData hasEmb url a s.db).1, cache := [] }
    else { db := (dbUpdateCrawlData hasEmb url a s.db).1, cache := s.cache }

/-- A mutation is result-affecting in the sense of the claim: an insert
of a new URL, a removal that removed at least one row, a hidden-toggle of
an existing document, or a crawl update whose content changed. -/
def resultAffecting : Mutation → StoreState → Bool
  | .add url _, s => !s.db.any (fun l => l.url == url)
  | .removeUrl url, s => s.db.any (fun l => l.url == url)
  | .removeId id, s => s.db.any (fun l => l.id == id)
  | .removeGlob pat, s => !(dbRemoveLinksPattern pat s.db).1.isEmpty
  | .toggleHidden url, s => s.db.any (fun l => l.url == url)
  | .toggleHiddenById id, s => s.db.any (fun l => l.id == id)
  | .crawlUpdate hasEmb url a, s => (dbUpdateCrawlData hasEmb url a s.db).2.2

/-- **C7 (confirmed).**  After every result-affecting store mutation
returns, the search cache holds zero entries: each such mutation calls
`db_invalidate_search_cache()` (a full `DELETE FROM search_cache`) before
acknowledging. -/
theorem c7_mutations_invalidate_cache (m : Mutation) (s : StoreState)
    (h : resultAffecting m s = true) : (applyMutation m s).cache = [] := by
  cases m with
  | add url newId =>
    simp only [resultAffecting, Bool.not_eq_true'] at h
    simp [applyMutation, h]
  | removeUrl url =>
    simp only [resultAffecting] at h
    simp [applyMutation, h]
  | removeId id =>
    simp only [resultAffecting] at h
    simp [applyMutation, h]
  | removeGlob pat =>
    simp only [resultAffecting, Bool.not_eq_true'] at h
    simp [applyMutation, h]
  | toggleHidden url =>
    simp only [resultAffecting] at h
    simp [applyMutation, h]
  | toggleHiddenById id =>
    simp only [resultAffecting] at h
    simp [applyMutation, h]
  | crawlUpdate hasEmb url a =>
    simp only [resultAffecting] at h
    simp [applyMutation, h]

/-- A non-empty cache entry for the C7 witness. -/
def c7Entry : CacheEntry :=
  { queryHash := "k", kwWeight := 0, vwWeight := 0,
    results := [], totalCount := 0, expiresAt := 99 }

/-- A store with one URL and one cache entry. -/
def c7State : StoreState :=
  { db := [{ id := 0, url := "u" }], cache := [c7Entry] }

/-- **C7, witness.**  Removing the one stored URL from a store whose
cache holds an entry leaves the cache empty. -/
theorem c7_mutations_invalidate_cache_witness :
    resultAffecting (.removeUrl "u") c7State = true ∧
      (applyMutation (.removeUrl "u") c7State).cache = [] := by
  refine ⟨by decide, ?_⟩
  exact c7_mutations_invalidate_cache _ _ (by decide)

/-! ## C10: `normalize_url` of crawl.py over a model of CPython 3.11
`urllib.parse`

`normalize_url` is `urlparse`, `_replace(fragment="")`,
`path.rstrip("/") or "/"`, `geturl()` (= `urlunparse`).  The model below
follows `urllib/parse.py` of CPython 3.11: `urlsplit`'s control-character
scrubbing, scheme detection, netloc splitting at the earliest of `/?#`,
fragment then query splitting at the first `#` / `?`; `urlparse`'s
params split (`;` after the last `/`) for schemes in `uses_params`; and
`urlunsplit`'s reassembly.  `_checknetloc` (a unicode-normalization
validation) and the IPv6-bracket check only raise exceptions and never
alter a returned value; they are elided. -/

/-- `scheme_chars` of urllib.parse. -/
def schemeChars : List Char :=
  "abcdefghijklmnopqrstuvwxyzABCDEFGHIJKLMNOPQRSTUVWXYZ0123456789+-.".data

/-- `uses_netloc` of urllib.parse. -/
def usesNetloc : List (List Char) :=
  ["", "ftp", "http", "gopher", "nntp", "telnet", "imap", "wais", "file",
    "mms", "https", "shttp", "snews", "prospero", "rtsp", "rtspu", "rsync",
    "svn", "svn+ssh", "sftp", "nfs", "git", "git+ssh", "ws", "wss"].map
    String.data

/-- `uses_params` of urllib.parse. -/
def usesParams : List (List Char) :=
  ["", "ftp", "hdl", "prospero", "http", "imap", "https", "shttp", "rtsp",
    "rtspu", "sip", "sips", "mms", "sftp", "tel"].map String.data

/-- `_UNSAFE_URL_BYTES_TO_REMOVE = ["\t", "\r", "\n"]`: characters kept
by urlsplit's scrubbing pass. -/
def keepChar (c : Char) : Bool := !(c == '\t' || c == '\r' || c == '\n')

/-- The scrubbing pass of `urlsplit`. -/
def removeUnsafe (s : List Char) : List Char := s.filter keepChar

/-- `_WHATWG_C0_CONTROL_OR_SPACE`: the C0 control characters and the
space, `lstrip`ped from the URL before parsing. -/
def c0OrSpace (c : Char) : Bool := c ≤ ' '

/-- Python `c.isascii() and c.isalpha()`. -/
def asciiAlpha (c : Char) : Bool :=
  ('a' ≤ c && c ≤ 'z') || ('A' ≤ c && c ≤ 'Z')

/-- Scheme detection of `urlsplit`: `i = url.find(':')`; a scheme is
split off when `i > 0`, the first character is an ASCII letter and every
character before the colon is a `scheme_chars` member; the scheme is
lowercased. -/
def splitScheme (s : List Char) : List Char × List Char :=
  match List.findIdx? (fun x => x == ':') s with
  | some i =>
    if 0 < i && asciiAlpha (s.headD ' ') &&
        (s.take i).all (fun x => schemeChars.contains x) then
      ((s.take i).map pyLowerChar, s.drop (i + 1))
    else ([], s)
  | none => ([], s)

/-- `_splitnetloc(url, 2)`: the netloc runs to the earliest of `/?#`. -/
def netlocDelim (c : Char) : Bool := c == '/' || c == '?' || c == '#'

/-- Python `if <delim> in url: url.split(<delim>, 1)`: split at the first
character satisfying `p`, dropping it; identity (with empty second
component) when no such character occurs. -/
def splitAtFirst (p : Char → Bool) (s : List Char) : List Char × List Char :=
  match List.findIdx? p s with
  | some i => (s.take i, s.drop (i + 1))
  | none => (s, [])

/-- The five components of `urlsplit` (`SplitResult`). -/
structure UrlSplit where
  scheme : List Char
  netloc : List Char
  path : List Char
  query : List Char
  fragment : List Char
deriving DecidableEq, Repr

/-- `urlsplit(url)` with the default `scheme=''`, `allow_fragments=True`
(the arguments `urlparse` passes for `normalize_url`). -/
def urlsplitL (url0 : List Char) : UrlSplit :=
  let url1 := removeUnsafe (url0.dropWhile c0OrSpace)
  let sr := splitScheme url1
  let nl :=
    if sr.2.take 2 = ['/', '/'] then
      let t := sr.2.drop 2
      let d := (List.findIdx? netlocDelim t).getD t.length
      (t.take d, t.drop d)
    else ([], sr.2)
  let fr := splitAtFirst (fun x => x == '#') nl.2
  let pq := splitAtFirst (fun x => x == '?') fr.1
  { scheme := sr.1, netloc := nl.1, path := pq.1, query := pq.2,
    fragment := fr.2 }

/-- Python `str.rfind`: index of the last occurrence. -/
def rfindIdx (c : Char) (s : List Char) : Option Nat :=
  (List.findIdx? (fun x => x == c) s.reverse).map (fun k => s.length - 1 - k)

/-- `_splitparams(url)`: split at the first `;` that follows the last
`/` (or the first `;` anywhere when the path has no `/`). -/
def splitParams (p : List Char) : List Char × List Char :=
  if '/' ∈ p then
    match (List.findIdx? (fun x => x == ';')
        (p.drop ((rfindIdx '/' p).getD 0))).map
        (· + (rfindIdx '/' p).getD 0) with
    | some i => (p.take i, p.drop (i + 1))
    | none => (p, [])
  else
    match List.findIdx? (fun x => x == ';') p with
    | some i => (p.take i, p.drop (i + 1))
    | none => (p, [])

/-- The six components of `urlparse` (`ParseResult`). -/
structure UrlParsed where
  scheme : List Char
  netloc : List Char
  path : List Char
  params : List Char
  query : List Char
  fragment : List Char
deriving DecidableEq, Repr

/-- `urlparse(url)`: `urlsplit` plus the params split for schemes in
`uses_params`. -/
def urlparseL (url0 : List Char) : UrlParsed :=
  let s := urlsplitL url0
  let pp :=
    if s.scheme ∈ usesParams ∧ ';' ∈ s.path then splitParams s.path
    else (s.path, [])
  { scheme := s.scheme, netloc := s.netloc, path := pp.1, params := pp.2,
    query := s.query, fragment := s.fragment }

/-- `urlunsplit(components)` of CPython 3.11. -/
def urlunsplitL (scheme netloc url query fragment : List Char) : List Char :=
  let url :=
    if netloc ≠ [] ∨ (scheme ≠ [] ∧ scheme ∈ usesNetloc ∧ url.take 2 ≠ ['/', '/']) then
      let url := if url ≠ [] ∧ url.take 1 ≠ ['/'] then '/' :: url else url
      '/' :: '/' :: (netloc ++ url)
    else url
  let url := if scheme ≠ [] then scheme ++ ':' :: url else url
  let url := if query ≠ [] then url ++ '?' :: query else url
  if fragment ≠ [] then url ++ '#' :: fragment else url

/-- `urlunparse`: rejoin `path;params`, then `urlunsplit`. -/
def urlunparseL (t : UrlParsed) : List Char :=
  urlunsplitL t.scheme t.netloc
    (if t.params ≠ [] then t.path ++ ';' :: t.params else t.path)
    t.query t.fragment

/-- `path.rstrip("/")`. -/
def rstripSlash (s : List Char) : List Char :=
  (s.reverse.dropWhile (fun c => c == '/')).reverse

/-- `path.rstrip("/") or "/"`. -/
def rstripOr (s : List Char) : List Char :=
  let r := rstripSlash s
  if r = [] then ['/'] else r

/-- `normalize_url` of crawl.py: parse, drop the fragment, collapse the
trailing slashes of the path (root stays `/`), reassemble. -/
def normalizeUrl (u : List Char) : List Char :=
  let p := urlparseL u
  urlunparseL { p with fragment := [], path := rstripOr p.path }

/-- String wrapper for `normalizeUrl`, keeping the source's name. -/
def normalize_url (s : String) : String := ⟨normalizeUrl s.data⟩

/-- **C10, counterexample.**  `normalize_url` is not idempotent: on
`"////x"` (empty netloc, path `"//x"`) the first pass emits `"//x"`,
which re-parses with netloc `"x"` and empty path, so the second pass
appends a root slash: `normalize_url "////x" = "//x"` but
`normalize_url "//x" = "//x/"`. -/
theorem c10_normalize_url_counterexample :
    normalize_url (normalize_url "////x") ≠ normalize_url "////x" := by
  decide

/-! Generic auxiliary lemmas for the re-parse argument. -/

theorem findIdx?_append_first (p : Char → Bool) (l : List Char) (x : Char)
    (r : List Char) (hl : ∀ c ∈ l, p c = false) (hx : p x = true) :
    List.findIdx? p (l ++ x :: r) = some l.length := by
  induction l with
  | nil => simp [List.findIdx?_cons, hx]
  | cons a t ih =>
    have ha : p a = false := hl a (List.mem_cons_self a t)
    have ht := ih (fun c hc => hl c (List.mem_cons_of_mem a hc))
    simp [List.findIdx?_cons, ha, ht, Nat.add_comm]

theorem findIdx?_none_of_all (p : Char → Bool) (l : List Char)
    (hl : ∀ c ∈ l, p c = false) : List.findIdx? p l = none := by
  induction l with
  | nil => simp
  | cons a t ih =>
    have ha : p a = false := hl a (List.mem_cons_self a t)
    have ht := ih (fun c hc => hl c (List.mem_cons_of_mem a hc))
    simp [List.findIdx?_cons, ha, ht]

theorem take_findIdx?_false (p : Char → Bool) :
    ∀ (l : List Char) (i : Nat), List.findIdx? p l = some i →
      ∀ c ∈ l.take i, p c = false := by
  intro l
  induction l with
  | nil => intro i h; simp at h
  | cons a t ih =>
    intro i h c hc
    by_cases ha : p a = true
    · rw [List.findIdx?_cons, ha] at h
      simp at h
      subst h
      simp at hc
    · have ha' : p a = false := by simpa using ha
      rw [List.findIdx?_cons, ha'] at h
      simp only [Bool.false_eq_true, if_false, List.findIdx?_succ] at h
      rcases Option.map_eq_some'.mp h with ⟨k, hk, hkj⟩
      cases i with
      | zero => omega
      | succ j =>
        have hj : j = k := by omega
        subst hj
        rw [List.take_succ_cons] at hc
        rcases List.mem_cons.mp hc with rfl | hc
        · exact ha'
        · exact ih j hk c hc

theorem mem_take_subset {l : List Char} {n : Nat} {c : Char}
    (h : c ∈ l.take n) : c ∈ l := List.take_subset n l h

theorem mem_rstripSlash {s : List Char} {c : Char} (h : c ∈ rstripSlash s) :
    c ∈ s := by
  simp only [rstripSlash, List.mem_reverse] at h
  exact List.mem_reverse.mp (List.dropWhile_sublist _ |>.mem h)

theorem rstripSlash_last_ne (s : List Char) :
    rstripSlash s = [] ∨ ∃ t c, rstripSlash s = t ++ [c] ∧ (c == '/') = false := by
  simp only [rstripSlash]
  rcases hd : s.reverse.dropWhile (fun c => c == '/') with _ | ⟨c, t⟩
  · left; simp
  · right
    refine ⟨t.reverse, c, by simp, ?_⟩
    have := List.head?_dropWhile_not (fun c => c == '/') s.reverse
    rw [hd] at this
    simpa using this

theorem rstripSlash_of_last_ne (t : List Char) (c : Char)
    (hc : (c == '/') = false) : rstripSlash (t ++ [c]) = t ++ [c] := by
  simp only [rstripSlash, List.reverse_append, List.reverse_cons,
    List.reverse_nil, List.nil_append, List.cons_append, List.dropWhile_cons,
    hc, cond_false]
  simp

theorem rstripOr_idem (s : List Char) : rstripOr (rstripOr s) = rstripOr s := by
  unfold rstripOr
  rcases rstripSlash_last_ne s with h | ⟨t, c, h, hc⟩
  · rw [h]
    simp only [if_pos rfl]
    decide
  · rw [h]
    have hne : t ++ [c] ≠ [] := by simp
    rw [if_neg hne, rstripSlash_of_last_ne t c hc, if_neg hne]

theorem splitAtFirst_fst_false (p : Char → Bool) (s : List Char) :
    ∀ c ∈ (splitAtFirst p s).1, p c = false := by
  unfold splitAtFirst
  rcases h : List.findIdx? p s with _ | i
  · simpa using List.findIdx?_eq_none_iff.mp h
  · exact take_findIdx?_false p s i h

theorem splitAtFirst_fst_subset (p : Char → Bool) (s : List Char) :
    ∀ c ∈ (splitAtFirst p s).1, c ∈ s := by
  unfold splitAtFirst
  rcases List.findIdx? p s with _ | i
  · simp
  · exact fun c hc => List.take_subset _ _ hc

theorem splitAtFirst_snd_subset (p : Char → Bool) (s : List Char) :
    ∀ c ∈ (splitAtFirst p s).2, c ∈ s := by
  unfold splitAtFirst
  rcases List.findIdx? p s with _ | i
  · simp
  · exact fun c hc => List.drop_subset _ _ hc

theorem splitAtFirst_of_none (p : Char → Bool) (s : List Char)
    (h : ∀ c ∈ s, p c = false) : splitAtFirst p s = (s, []) := by
  unfold splitAtFirst
  rw [findIdx?_none_of_all p s h]

theorem splitAtFirst_append (p : Char → Bool) (l : List Char) (x : Char)
    (r : List Char) (hl : ∀ c ∈ l, p c = false) (hx : p x = true) :
    splitAtFirst p (l ++ x :: r) = (l, r) := by
  unfold splitAtFirst
  rw [findIdx?_append_first p l x r hl hx]
  have h1 : (l ++ x :: r).take l.length = l := List.take_left l (x :: r)
  have h2 : (l ++ x :: r).drop (l.length + 1) = r := by
    have hd : (l ++ x :: r).drop l.length = x :: r := List.drop_left l (x :: r)
    rw [← List.drop_drop, hd]
    simp
  show ((l ++ x :: r).take l.length, (l ++ x :: r).drop (l.length + 1)) = (l, r)
  rw [h1, h2]

/-! Character-class facts, decided over the concrete `scheme_chars`. -/

theorem schemeChars_lower_mem : ∀ x ∈ schemeChars, pyLowerChar x ∈ schemeChars := by
  decide

theorem schemeChars_lower_fix :
    ∀ x ∈ schemeChars, pyLowerChar (pyLowerChar x) = pyLowerChar x := by
  decide

theorem schemeChars_not_colon : ∀ x ∈ schemeChars, (x == ':') = false := by
  decide

theorem schemeChars_keep : ∀ x ∈ schemeChars, keepChar x = true := by
  decide

theorem schemeChars_alpha_lower :
    ∀ x ∈ schemeChars, asciiAlpha x = true → asciiAlpha (pyLowerChar x) = true := by
  decide

theorem asciiAlpha_not_c0 (c : Char) (h : asciiAlpha c = true) :
    c0OrSpace c = false := by
  simp only [asciiAlpha, Bool.or_eq_true, Bool.and_eq_true,
    decide_eq_true_eq] at h
  simp only [c0OrSpace, decide_eq_false_iff_not]
  intro hle
  rcases h with ⟨h1, _⟩ | ⟨h1, _⟩
  · exact absurd (le_trans h1 hle) (by decide)
  · exact absurd (le_trans h1 hle) (by decide)

theorem asciiAlpha_keep (c : Char) (h : asciiAlpha c = true) :
    keepChar c = true := by
  simp only [asciiAlpha, Bool.or_eq_true, Bool.and_eq_true,
    decide_eq_true_eq] at h
  have hne : c ≠ '\t' ∧ c ≠ '\r' ∧ c ≠ '\n' := by
    rcases h with ⟨h1, _⟩ | ⟨h1, _⟩ <;>
      exact ⟨by rintro rfl; exact absurd h1 (by decide),
        by rintro rfl; exact absurd h1 (by decide),
        by rintro rfl; exact absurd h1 (by decide)⟩
  simp [keepChar, hne.1, hne.2.1, hne.2.2]


theorem splitScheme_snd_subset (s : List Char) :
    ∀ c ∈ (splitScheme s).2, c ∈ s := by
  rcases hf : List.findIdx? (fun x => x == ':') s with _ | i
  · simp only [splitScheme, hf]
    simp
  · simp only [splitScheme, hf]
    by_cases hc : (0 < i && asciiAlpha (s.headD ' ') &&
        (s.take i).all (fun x => schemeChars.contains x)) = true
    · rw [if_pos hc]
      exact fun c hc2 => List.drop_subset _ _ hc2
    · rw [if_neg hc]
      simp

theorem splitScheme_fst_good (s : List Char) :
    (splitScheme s).1 = [] ∨
      ((∃ c r, (splitScheme s).1 = c :: r ∧ asciiAlpha c = true) ∧
        ∀ x ∈ (splitScheme s).1, x ∈ schemeChars ∧ pyLowerChar x = x) := by
  rcases hf : List.findIdx? (fun x => x == ':') s with _ | i
  · simp [splitScheme, hf]
  · simp only [splitScheme, hf]
    by_cases hc : (0 < i && asciiAlpha (s.headD ' ') &&
        (s.take i).all (fun x => schemeChars.contains x)) = true
    · rw [if_pos hc]
      simp only [Bool.and_eq_true, decide_eq_true_eq] at hc
      obtain ⟨⟨hi, hal⟩, hall⟩ := hc
      have hmem : ∀ x ∈ s.take i, x ∈ schemeChars := by
        intro x hx
        exact List.elem_iff.mp (List.all_eq_true.mp hall x hx)
      right
      constructor
      · cases s with
        | nil => simp at hf
        | cons a r =>
          obtain ⟨j, rfl⟩ : ∃ j, i = j + 1 := ⟨i - 1, by omega⟩
          rw [List.take_succ_cons]
          refine ⟨pyLowerChar a, (r.take j).map pyLowerChar, by simp, ?_⟩
          have ha : a ∈ schemeChars := by
            apply hmem
            rw [List.take_succ_cons]
            exact List.mem_cons_self _ _
          have hal' : asciiAlpha a = true := by simpa using hal
          exact schemeChars_alpha_lower a ha hal'
      · intro x hx
        obtain ⟨y, hy, rfl⟩ := List.mem_map.mp hx
        have hys := hmem y hy
        exact ⟨schemeChars_lower_mem y hys, schemeChars_lower_fix y hys⟩
    · rw [if_neg hc]
      left; rfl

theorem splitScheme_not_alpha (c : Char) (r : List Char)
    (h : asciiAlpha c = false) : splitScheme (c :: r) = ([], c :: r) := by
  rcases hf : List.findIdx? (fun x => x == ':') (c :: r) with _ | i
  · simp only [splitScheme, hf]
  · simp only [splitScheme, hf]
    rw [if_neg]
    simp only [List.headD_cons, h, Bool.and_false, Bool.false_and]
    simp

theorem splitScheme_roundtrip (c : Char) (t rest : List Char)
    (hal : asciiAlpha c = true)
    (hmem : ∀ x ∈ c :: t, x ∈ schemeChars ∧ pyLowerChar x = x) :
    splitScheme ((c :: t) ++ ':' :: rest) = (c :: t, rest) := by
  have hfind : List.findIdx? (fun x => x == ':') ((c :: t) ++ ':' :: rest) =
      some (c :: t).length :=
    findIdx?_append_first _ _ _ _
      (fun x hx => schemeChars_not_colon x (hmem x hx).1) (by decide)
  have htake : ((c :: t) ++ ':' :: rest).take (c :: t).length = c :: t :=
    List.take_left _ _
  have hdrop : ((c :: t) ++ ':' :: rest).drop ((c :: t).length + 1) = rest := by
    have hd : ((c :: t) ++ ':' :: rest).drop (c :: t).length = ':' :: rest :=
      List.drop_left _ _
    rw [← List.drop_drop, hd]
    simp
  simp only [splitScheme, hfind]
  rw [if_pos]
  · rw [htake, hdrop]
    have hmap : (c :: t).map pyLowerChar = c :: t := by
      rw [List.map_congr_left (fun x hx => (hmem x hx).2)]
      exact List.map_id _
    rw [hmap]
  · simp only [Bool.and_eq_true, decide_eq_true_eq]
    refine ⟨⟨by simp, by simpa using hal⟩, ?_⟩
    rw [htake]
    exact List.all_eq_true.mpr
      (fun x hx => List.elem_iff.mpr (hmem x hx).1)

theorem drop_findIdx? (p : Char → Bool) :
    ∀ (l : List Char) (i : Nat), List.findIdx? p l = some i →
      ∃ x r, l.drop i = x :: r ∧ p x = true := by
  intro l
  induction l with
  | nil => simp
  | cons a t ih =>
    intro i h
    by_cases ha : p a = true
    · rw [List.findIdx?_cons, if_pos ha] at h
      obtain rfl : i = 0 := by simpa using h.symm
      exact ⟨a, t, rfl, ha⟩
    · have ha' : p a = false := by simpa using ha
      rw [List.findIdx?_cons, ha'] at h
      simp only [Bool.false_eq_true, if_false, List.findIdx?_succ] at h
      rcases Option.map_eq_some'.mp h with ⟨k, hk, hkj⟩
      obtain rfl : i = k + 1 := hkj.symm
      obtain ⟨x, r, hxr, hx⟩ := ih k hk
      exact ⟨x, r, by simpa using hxr, hx⟩

theorem splitAtFirst_of_head (p : Char → Bool) (x : Char) (r : List Char)
    (hx : p x = true) : splitAtFirst p (x :: r) = ([], r) := by
  have := splitAtFirst_append p [] x r (by simp) hx
  simpa using this

theorem splitAtFirst_fst_head (p : Char → Bool) (x : Char) (r : List Char)
    (hx : p x = false) : ∃ w, (splitAtFirst p (x :: r)).1 = x :: w := by
  unfold splitAtFirst
  rcases hf : List.findIdx? p (x :: r) with _ | i
  · exact ⟨r, rfl⟩
  · rw [List.findIdx?_cons, hx] at hf
    simp only [Bool.false_eq_true, if_false, List.findIdx?_succ] at hf
    rcases Option.map_eq_some'.mp hf with ⟨k, _, hkj⟩
    obtain rfl : i = k + 1 := hkj.symm
    exact ⟨r.take k, by simp⟩

theorem rfindIdx_after (c : Char) (p : List Char) (hc : c ∈ p) :
    ∀ x ∈ p.drop ((rfindIdx c p).getD 0 + 1), (x == c) = false := by
  have hsome : (List.findIdx? (fun x => x == c) p.reverse).isSome = true := by
    rw [List.findIdx?_isSome]
    exact List.any_eq_true.mpr ⟨c, List.mem_reverse.mpr hc, by simp⟩
  obtain ⟨k, hk⟩ := Option.isSome_iff_exists.mp hsome
  have hklt : k < p.length := by
    have := (List.findIdx?_eq_some_iff_findIdx_eq.mp hk).1
    simpa using this
  have hj : (rfindIdx c p).getD 0 = p.length - 1 - k := by
    simp [rfindIdx, hk]
  intro x hx
  rw [hj] at hx
  have hdrop : p.length - 1 - k + 1 = p.length - k := by omega
  rw [hdrop] at hx
  have hxrev : x ∈ p.reverse.take k := by
    have hrev : (p.drop (p.length - k)).reverse = p.reverse.take (p.length - (p.length - k)) :=
      List.reverse_drop
    have hlen : p.length - (p.length - k) = k := by omega
    rw [hlen] at hrev
    rw [← hrev]
    exact List.mem_reverse.mpr hx
  exact take_findIdx?_false _ _ _ hk x hxrev

/-- Invariants satisfied by every `urlparse` result, used to show that
re-parsing its own unparse recovers the components. -/
structure ParsedGood (t : UrlParsed) : Prop where
  scheme_good : t.scheme = [] ∨
    ((∃ c r, t.scheme = c :: r ∧ asciiAlpha c = true) ∧
      ∀ x ∈ t.scheme, x ∈ schemeChars ∧ pyLowerChar x = x)
  netloc_ok : ∀ c ∈ t.netloc, netlocDelim c = false ∧ keepChar c = true
  path_ok : ∀ c ∈ t.path,
    ((c == '#') = false ∧ (c == '?') = false) ∧ keepChar c = true
  path_start : t.netloc ≠ [] → t.path = [] ∨ ∃ r, t.path = '/' :: r
  params_ok : ∀ c ∈ t.params,
    ((c == '#') = false ∧ (c == '?') = false ∧ (c == '/') = false) ∧
      keepChar c = true
  params_scheme : t.params ≠ [] → t.scheme ∈ usesParams
  query_ok : ∀ c ∈ t.query, (c == '#') = false ∧ keepChar c = true

/-- The scrubbed input of `urlsplitL`. -/
def url1Of (u : List Char) : List Char := removeUnsafe (u.dropWhile c0OrSpace)

/-- The remainder after the scheme split. -/
def restOf (u : List Char) : List Char := (splitScheme (url1Of u)).2

/-- The netloc/remainder pair of `urlsplitL`. -/
def netPairOf (u : List Char) : List Char × List Char :=
  if (restOf u).take 2 = ['/', '/'] then
    let t := (restOf u).drop 2
    let d := (List.findIdx? netlocDelim t).getD t.length
    (t.take d, t.drop d)
  else ([], restOf u)

theorem urlsplitL_eq (u : List Char) :
    urlsplitL u =
      { scheme := (splitScheme (url1Of u)).1
        netloc := (netPairOf u).1
        path := (splitAtFirst (fun x => x == '?')
          ((splitAtFirst (fun x => x == '#') (netPairOf u).2).1)).1
        query := (splitAtFirst (fun x => x == '?')
          ((splitAtFirst (fun x => x == '#') (netPairOf u).2).1)).2
        fragment := (splitAtFirst (fun x => x == '#') (netPairOf u).2).2 } :=
  rfl

theorem url1Of_keep (u : List Char) : ∀ c ∈ url1Of u, keepChar c = true := by
  intro c hc
  exact (List.mem_filter.mp hc).2

theorem restOf_keep (u : List Char) : ∀ c ∈ restOf u, keepChar c = true :=
  fun c hc => url1Of_keep u c (splitScheme_snd_subset _ c hc)

theorem netPairOf_fst_ok (u : List Char) :
    ∀ c ∈ (netPairOf u).1, netlocDelim c = false ∧ keepChar c = true := by
  intro c hc
  unfold netPairOf at hc
  by_cases hif : (restOf u).take 2 = ['/', '/']
  · rw [if_pos hif] at hc
    simp only at hc
    have hsub : c ∈ (restOf u).drop 2 :=
      List.take_subset _ _ hc
    constructor
    · rcases hf : List.findIdx? netlocDelim ((restOf u).drop 2) with _ | i
      · exact List.findIdx?_eq_none_iff.mp hf c hsub
      · rw [hf] at hc
        exact take_findIdx?_false _ _ _ hf c hc
    · exact restOf_keep u c (List.drop_subset _ _ hsub)
  · rw [if_neg hif] at hc
    simp at hc

theorem netPairOf_snd_subset (u : List Char) :
    ∀ c ∈ (netPairOf u).2, c ∈ restOf u := by
  intro c hc
  unfold netPairOf at hc
  by_cases hif : (restOf u).take 2 = ['/', '/']
  · rw [if_pos hif] at hc
    simp only at hc
    exact List.drop_subset _ _ (List.drop_subset _ _ hc)
  · rw [if_neg hif] at hc
    exact hc

/-- When the netloc is non-empty, the remainder after the netloc split is
empty or begins with one of the delimiters `/?#`. -/
theorem netPairOf_snd_head (u : List Char) (hn : (netPairOf u).1 ≠ []) :
    (netPairOf u).2 = [] ∨
      ∃ x r, (netPairOf u).2 = x :: r ∧ netlocDelim x = true := by
  unfold netPairOf at hn ⊢
  by_cases hif : (restOf u).take 2 = ['/', '/']
  · rw [if_pos hif] at hn ⊢
    simp only at hn ⊢
    rcases hf : List.findIdx? netlocDelim ((restOf u).drop 2) with _ | i
    · left
      simp
      omega
    · right
      obtain ⟨x, r, hxr, hx⟩ := drop_findIdx? netlocDelim _ i hf
      exact ⟨x, r, by simpa using hxr, hx⟩
  · rw [if_neg hif] at hn
    exact absurd rfl hn

/-- The fragment split of `urlsplitL`. -/
def frOf (u : List Char) : List Char × List Char :=
  splitAtFirst (fun x => x == '#') (netPairOf u).2

/-- The query split of `urlsplitL`. -/
def pqOf (u : List Char) : List Char × List Char :=
  splitAtFirst (fun x => x == '?') (frOf u).1

theorem urlparseL_of_split (u : List Char) :
    urlparseL u =
      { scheme := (urlsplitL u).scheme
        netloc := (urlsplitL u).netloc
        path := (if (urlsplitL u).scheme ∈ usesParams ∧ ';' ∈ (urlsplitL u).path
          then splitParams (urlsplitL u).path
          else ((urlsplitL u).path, [])).1
        params := (if (urlsplitL u).scheme ∈ usesParams ∧ ';' ∈ (urlsplitL u).path
          then splitParams (urlsplitL u).path
          else ((urlsplitL u).path, [])).2
        query := (urlsplitL u).query
        fragment := (urlsplitL u).fragment } :=
  rfl

theorem urlsplitL_path (u : List Char) : (urlsplitL u).path = (pqOf u).1 := rfl

theorem urlsplitL_query (u : List Char) : (urlsplitL u).query = (pqOf u).2 := rfl

theorem urlsplitL_fragment (u : List Char) :
    (urlsplitL u).fragment = (frOf u).2 := rfl

theorem urlsplitL_netloc (u : List Char) :
    (urlsplitL u).netloc = (netPairOf u).1 := rfl

theorem urlsplitL_scheme (u : List Char) :
    (urlsplitL u).scheme = (splitScheme (url1Of u)).1 := rfl

theorem findIdx?_append_skip (q : Char → Bool) (l r : List Char)
    (hl : ∀ c ∈ l, q c = false) :
    List.findIdx? q (l ++ r) = (List.findIdx? q r).map (fun k => k + l.length) := by
  induction l with
  | nil => simp
  | cons a t ih =>
    have ha : q a = false := hl a (List.mem_cons_self a t)
    have ht := ih (fun c hc => hl c (List.mem_cons_of_mem a hc))
    rw [List.cons_append, List.findIdx?_cons, ha]
    simp only [Bool.false_eq_true, if_false, List.findIdx?_succ]
    rw [ht, Option.map_map]
    rcases List.findIdx? q r with _ | k
    · rfl
    · show some (k + t.length + 1) = some (k + (a :: t).length)
      rw [List.length_cons, Nat.add_assoc]

theorem splitParams_fst_take (p : List Char) :
    ∃ n, (splitParams p).1 = p.take n := by
  unfold splitParams
  by_cases h : '/' ∈ p
  · rw [if_pos h]
    rcases hf : (List.findIdx? (fun x => x == ';')
        (p.drop ((rfindIdx '/' p).getD 0))).map
        (· + (rfindIdx '/' p).getD 0) with _ | i
    · exact ⟨p.length, by simp⟩
    · exact ⟨i, rfl⟩
  · rw [if_neg h]
    rcases hf : List.findIdx? (fun x => x == ';') p with _ | i
    · exact ⟨p.length, by simp⟩
    · exact ⟨i, rfl⟩

theorem splitParams_snd_props (p : List Char) :
    ∀ c ∈ (splitParams p).2, c ∈ p ∧ (c == '/') = false := by
  intro c hc
  unfold splitParams at hc
  by_cases h : '/' ∈ p
  · rw [if_pos h] at hc
    rcases hf : (List.findIdx? (fun x => x == ';')
        (p.drop ((rfindIdx '/' p).getD 0))).map
        (· + (rfindIdx '/' p).getD 0) with _ | i
    · rw [hf] at hc
      simp at hc
    · rw [hf] at hc
      have hc2 : c ∈ p.drop (i + 1) := hc
      obtain ⟨k, hk, hik⟩ := Option.map_eq_some'.mp hf
      refine ⟨List.drop_subset _ _ hc2, ?_⟩
      have hdd : p.drop (i + 1) =
          (p.drop ((rfindIdx '/' p).getD 0 + 1)).drop
            (i + 1 - ((rfindIdx '/' p).getD 0 + 1)) := by
        rw [List.drop_drop]
        congr 1
        omega
      rw [hdd] at hc2
      exact rfindIdx_after '/' p h c (List.drop_subset _ _ hc2)
  · rw [if_neg h] at hc
    rcases hf : List.findIdx? (fun x => x == ';') p with _ | i
    · rw [hf] at hc
      simp at hc
    · rw [hf] at hc
      have hcp : c ∈ p := List.drop_subset _ _ hc
      refine ⟨hcp, ?_⟩
      simp only [beq_eq_false_iff_ne, ne_eq]
      rintro rfl
      exact h hcp

theorem splitParams_append (p ps : List Char)
    (hsl : '/' ∈ p)
    (hpsemi : ∀ c ∈ p, (c == ';') = false)
    (hps : ∀ c ∈ ps, (c == '/') = false) :
    splitParams (p ++ ';' :: ps) = (p, ps) := by
  have hmemA : '/' ∈ p ++ ';' :: ps := List.mem_append.mpr (Or.inl hsl)
  obtain ⟨k, hk⟩ : ∃ k, List.findIdx? (fun x => x == '/') p.reverse = some k := by
    have hs : (List.findIdx? (fun x => x == '/') p.reverse).isSome = true := by
      rw [List.findIdx?_isSome]
      exact List.any_eq_true.mpr ⟨'/', List.mem_reverse.mpr hsl, by simp⟩
    exact Option.isSome_iff_exists.mp hs
  have hklt : k < p.length := by
    have h2 := (List.findIdx?_eq_some_iff_findIdx_eq.mp hk).1
    simpa using h2
  have hArev : (p ++ ';' :: ps).reverse = (ps.reverse ++ [';']) ++ p.reverse := by
    simp
  have hfalse : ∀ c ∈ ps.reverse ++ [';'], (c == '/') = false := by
    intro c hc
    rcases List.mem_append.mp hc with h | h
    · exact hps c (List.mem_reverse.mp h)
    · rcases List.mem_singleton.mp h with rfl
      decide
  have hfA : List.findIdx? (fun x => x == '/') (p ++ ';' :: ps).reverse =
      some (k + (ps.length + 1)) := by
    rw [hArev, findIdx?_append_skip _ _ _ hfalse, hk]
    simp
  have hj : (rfindIdx '/' (p ++ ';' :: ps)).getD 0 = p.length - 1 - k := by
    simp only [rfindIdx, hfA, Option.map_some', Option.getD_some,
      List.length_append, List.length_cons]
    omega
  have hdropA : (p ++ ';' :: ps).drop (p.length - 1 - k) =
      p.drop (p.length - 1 - k) ++ ';' :: ps :=
    List.drop_append_of_le_length (by omega)
  have hsemiA : List.findIdx? (fun x => x == ';')
      ((p ++ ';' :: ps).drop (p.length - 1 - k)) =
      some (p.length - (p.length - 1 - k)) := by
    rw [hdropA,
      findIdx?_append_first (fun x => x == ';') (p.drop (p.length - 1 - k)) ';' ps
        (fun c hc => hpsemi c (List.drop_subset _ _ hc)) (by decide)]
    rw [List.length_drop]
  have harith : (p.length - (p.length - 1 - k)) + (p.length - 1 - k) = p.length := by
    omega
  unfold splitParams
  rw [if_pos hmemA]
  show (match (List.findIdx? (fun x => x == ';')
      ((p ++ ';' :: ps).drop ((rfindIdx '/' (p ++ ';' :: ps)).getD 0))).map
      (· + (rfindIdx '/' (p ++ ';' :: ps)).getD 0) with
    | some i => ((p ++ ';' :: ps).take i, (p ++ ';' :: ps).drop (i + 1))
    | none => (p ++ ';' :: ps, [])) = (p, ps)
  rw [hj, hsemiA]
  show ((p ++ ';' :: ps).take ((p.length - (p.length - 1 - k)) + (p.length - 1 - k)),
      (p ++ ';' :: ps).drop ((p.length - (p.length - 1 - k)) + (p.length - 1 - k) + 1))
    = (p, ps)
  rw [harith]
  have h1 : (p ++ ';' :: ps).take p.length = p := List.take_left _ _
  have h2 : (p ++ ';' :: ps).drop (p.length + 1) = ps := by
    have hd : (p ++ ';' :: ps).drop p.length = ';' :: ps := List.drop_left _ _
    rw [← List.drop_drop, hd]
    simp
  rw [h1, h2]

theorem rstripSlash_prefix (s : List Char) : rstripSlash s <+: s := by
  have h := List.dropWhile_suffix (l := s.reverse) (p := fun c => c == '/')
  have h2 := List.reverse_prefix.mpr h
  rwa [List.reverse_reverse] at h2

theorem rstripOr_head (s : List Char) (h : s = [] ∨ ∃ r, s = '/' :: r) :
    ∃ r, rstripOr s = '/' :: r := by
  rcases h with rfl | ⟨r, rfl⟩
  · exact ⟨[], rfl⟩
  · rcases hx : rstripSlash ('/' :: r) with _ | ⟨x, w⟩
    · refine ⟨[], ?_⟩
      show (if rstripSlash ('/' :: r) = [] then ['/'] else rstripSlash ('/' :: r))
        = '/' :: ([] : List Char)
      rw [hx]
      rfl
    · have hpre := rstripSlash_prefix ('/' :: r)
      rw [hx] at hpre
      obtain ⟨tail, htail⟩ := hpre
      rw [List.cons_append] at htail
      injection htail with h1 _
      subst h1
      refine ⟨w, ?_⟩
      show (if rstripSlash ('/' :: r) = [] then ['/'] else rstripSlash ('/' :: r))
        = '/' :: w
      rw [hx]
      simp

theorem mem_rstripOr {s : List Char} {c : Char} (h : c ∈ rstripOr s) :
    c = '/' ∨ c ∈ s := by
  have h2 : c ∈ (if rstripSlash s = [] then ['/'] else rstripSlash s) := h
  by_cases he : rstripSlash s = []
  · rw [if_pos he] at h2
    left
    simpa using h2
  · rw [if_neg he] at h2
    right
    exact mem_rstripSlash h2

theorem url1Of_of_good (x : Char) (xs : List Char) (hx0 : c0OrSpace x = false)
    (hkeep : ∀ c ∈ x :: xs, keepChar c = true) : url1Of (x :: xs) = x :: xs := by
  unfold url1Of removeUnsafe
  rw [List.dropWhile_cons]
  simp only [hx0, Bool.false_eq_true, if_false]
  exact List.filter_eq_self.mpr hkeep

theorem restOf_scheme (c : Char) (tl rest : List Char)
    (hal : asciiAlpha c = true)
    (hmem : ∀ x ∈ c :: tl, x ∈ schemeChars ∧ pyLowerChar x = x)
    (hkeep : ∀ x ∈ rest, keepChar x = true) :
    splitScheme (url1Of ((c :: tl) ++ ':' :: rest)) = (c :: tl, rest) := by
  have hx0 : c0OrSpace c = false := asciiAlpha_not_c0 c hal
  have hkeep' : ∀ x ∈ (c :: tl) ++ ':' :: rest, keepChar x = true := by
    intro x hx
    rcases List.mem_append.mp hx with h | h
    · exact schemeChars_keep x (hmem x h).1
    · rcases List.mem_cons.mp h with rfl | h
      · decide
      · exact hkeep x h
  have h1 : url1Of ((c :: tl) ++ ':' :: rest) = (c :: tl) ++ ':' :: rest := by
    rw [List.cons_append]
    exact url1Of_of_good c (tl ++ ':' :: rest) hx0
      (by rw [← List.cons_append]; exact hkeep')
  rw [h1]
  exact splitScheme_roundtrip c tl rest hal hmem

theorem restOf_noscheme (rest : List Char)
    (hkeep : ∀ x ∈ '/' :: rest, keepChar x = true) :
    splitScheme (url1Of ('/' :: rest)) = ([], '/' :: rest) := by
  rw [url1Of_of_good '/' rest (by decide) hkeep]
  exact splitScheme_not_alpha '/' rest (by decide)

theorem netPairOf_eq_of_rest (u : List Char) (nl w : List Char)
    (hrest : restOf u = '/' :: '/' :: (nl ++ '/' :: w))
    (hnl : ∀ c ∈ nl, netlocDelim c = false) :
    netPairOf u = (nl, '/' :: w) := by
  unfold netPairOf
  rw [hrest]
  have hfi : List.findIdx? netlocDelim (nl ++ '/' :: w) = some nl.length :=
    findIdx?_append_first _ _ _ _ hnl (by decide)
  rw [if_pos (by simp)]
  show ((nl ++ '/' :: w).take
      ((List.findIdx? netlocDelim (nl ++ '/' :: w)).getD (nl ++ '/' :: w).length),
    (nl ++ '/' :: w).drop
      ((List.findIdx? netlocDelim (nl ++ '/' :: w)).getD (nl ++ '/' :: w).length))
    = (nl, '/' :: w)
  rw [hfi]
  show ((nl ++ '/' :: w).take nl.length, (nl ++ '/' :: w).drop nl.length)
    = (nl, '/' :: w)
  rw [List.take_left, List.drop_left]

theorem pqOf_fst_props (u : List Char) :
    ∀ c ∈ (pqOf u).1,
      ((c == '#') = false ∧ (c == '?') = false) ∧ keepChar c = true := by
  intro c hc
  have h1 : c ∈ (frOf u).1 := splitAtFirst_fst_subset _ _ c hc
  have h2 : c ∈ (netPairOf u).2 := splitAtFirst_fst_subset _ _ c h1
  exact ⟨⟨splitAtFirst_fst_false _ _ c h1, splitAtFirst_fst_false _ _ c hc⟩,
    restOf_keep u c (netPairOf_snd_subset u c h2)⟩

theorem pqOf_snd_props (u : List Char) :
    ∀ c ∈ (pqOf u).2, (c == '#') = false ∧ keepChar c = true := by
  intro c hc
  have h1 : c ∈ (frOf u).1 := splitAtFirst_snd_subset _ _ c hc
  have h2 : c ∈ (netPairOf u).2 := splitAtFirst_fst_subset _ _ c h1
  exact ⟨splitAtFirst_fst_false _ _ c h1,
    restOf_keep u c (netPairOf_snd_subset u c h2)⟩

theorem pqOf_fst_start (u : List Char) (hn : (netPairOf u).1 ≠ []) :
    (pqOf u).1 = [] ∨ ∃ r, (pqOf u).1 = '/' :: r := by
  rcases netPairOf_snd_head u hn with h | ⟨x, r, hxr, hx⟩
  · left
    simp [pqOf, frOf, h, splitAtFirst]
  · have hx3 : x = '/' ∨ x = '?' ∨ x = '#' := by
      simp only [netlocDelim, Bool.or_eq_true, beq_iff_eq] at hx
      tauto
    rcases hx3 with rfl | rfl | rfl
    · right
      have hfr : ∃ w, (frOf u).1 = '/' :: w := by
        rw [frOf, hxr]
        exact splitAtFirst_fst_head _ _ _ (by decide)
      obtain ⟨w, hw⟩ := hfr
      rw [pqOf, hw]
      exact splitAtFirst_fst_head _ _ _ (by decide)
    · left
      have hfr : ∃ w, (frOf u).1 = '?' :: w := by
        rw [frOf, hxr]
        exact splitAtFirst_fst_head _ _ _ (by decide)
      obtain ⟨w, hw⟩ := hfr
      rw [pqOf, hw, splitAtFirst_of_head _ _ _ (by decide)]
    · left
      have hfr : (frOf u).1 = [] := by
        rw [frOf, hxr, splitAtFirst_of_head _ _ _ (by decide)]
      rw [pqOf, hfr]
      simp [splitAtFirst]

/-- Every `urlparse` result satisfies the component invariants. -/
theorem parsedGood_urlparseL (u : List Char) : ParsedGood (urlparseL u) := by
  have hpath : (urlparseL u).path =
      (if (splitScheme (url1Of u)).1 ∈ usesParams ∧ ';' ∈ (pqOf u).1
        then splitParams (pqOf u).1 else ((pqOf u).1, [])).1 := rfl
  have hparams : (urlparseL u).params =
      (if (splitScheme (url1Of u)).1 ∈ usesParams ∧ ';' ∈ (pqOf u).1
        then splitParams (pqOf u).1 else ((pqOf u).1, [])).2 := rfl
  have hscheme : (urlparseL u).scheme = (splitScheme (url1Of u)).1 := rfl
  have hnetloc : (urlparseL u).netloc = (netPairOf u).1 := rfl
  have hquery : (urlparseL u).query = (pqOf u).2 := rfl
  constructor
  · rw [hscheme]
    exact splitScheme_fst_good _
  · rw [hnetloc]
    exact netPairOf_fst_ok u
  · intro c hc
    rw [hpath] at hc
    have hcp : c ∈ (pqOf u).1 := by
      by_cases h : (splitScheme (url1Of u)).1 ∈ usesParams ∧ ';' ∈ (pqOf u).1
      · rw [if_pos h] at hc
        obtain ⟨n, hn⟩ := splitParams_fst_take (pqOf u).1
        rw [hn] at hc
        exact List.take_subset _ _ hc
      · rw [if_neg h] at hc
        exact hc
    exact pqOf_fst_props u c hcp
  · intro hn
    rw [hnetloc] at hn
    rw [hpath]
    rcases pqOf_fst_start u hn with h | ⟨r, hr⟩
    · left
      by_cases hb : (splitScheme (url1Of u)).1 ∈ usesParams ∧ ';' ∈ (pqOf u).1
      · rw [if_pos hb]
        obtain ⟨n, hn2⟩ := splitParams_fst_take (pqOf u).1
        rw [hn2, h]
        simp
      · rw [if_neg hb]
        exact h
    · by_cases hb : (splitScheme (url1Of u)).1 ∈ usesParams ∧ ';' ∈ (pqOf u).1
      · obtain ⟨n, hn2⟩ := splitParams_fst_take (pqOf u).1
        rw [if_pos hb, hn2, hr]
        cases n with
        | zero =>
          left
          simp
        | succ m =>
          right
          exact ⟨r.take m, by simp⟩
      · rw [if_neg hb]
        right
        exact ⟨r, hr⟩
  · intro c hc
    rw [hparams] at hc
    by_cases hb : (splitScheme (url1Of u)).1 ∈ usesParams ∧ ';' ∈ (pqOf u).1
    · rw [if_pos hb] at hc
      obtain ⟨hcp, hslash⟩ := splitParams_snd_props _ c hc
      have hprops := pqOf_fst_props u c hcp
      exact ⟨⟨hprops.1.1, hprops.1.2, hslash⟩, hprops.2⟩
    · rw [if_neg hb] at hc
      simp at hc
  · intro hne
    rw [hparams] at hne
    rw [hscheme]
    by_cases hb : (splitScheme (url1Of u)).1 ∈ usesParams ∧ ';' ∈ (pqOf u).1
    · exact hb.1
    · rw [if_neg hb] at hne
      exact absurd rfl hne
  · intro c hc
    rw [hquery] at hc
    exact pqOf_snd_props u c hc

theorem urlunsplitL_form (sc nl q w : List Char) (hn : nl ≠ []) :
    urlunsplitL sc nl ('/' :: w) q [] =
      (if sc = [] then [] else sc ++ [':']) ++ '/' :: '/' ::
        (nl ++ (('/' :: w) ++ (if q = [] then [] else '?' :: q))) := by
  by_cases hsc : sc = [] <;> by_cases hq : q = [] <;>
    simp [urlunsplitL, hsc, hq, hn, List.append_assoc]

theorem urlsplitL_of_scheme_rest (u : List Char) (sc nl w QO q : List Char)
    (hss : splitScheme (url1Of u) = (sc, '/' :: '/' :: (nl ++ (('/' :: w) ++ QO))))
    (hnl : ∀ c ∈ nl, netlocDelim c = false)
    (hwok : ∀ c ∈ '/' :: w, (c == '#') = false ∧ (c == '?') = false)
    (hQO : QO = [] ∧ q = [] ∨ QO = '?' :: q)
    (hq : ∀ c ∈ q, (c == '#') = false) :
    urlsplitL u = ⟨sc, nl, '/' :: w, q, []⟩ := by
  have hrest : restOf u = '/' :: '/' :: (nl ++ ('/' :: (w ++ QO))) := by
    have h2 : restOf u = (sc, '/' :: '/' :: (nl ++ (('/' :: w) ++ QO))).2 := by
      show (splitScheme (url1Of u)).2 = _
      rw [hss]
    exact h2
  have hnp : netPairOf u = (nl, '/' :: (w ++ QO)) :=
    netPairOf_eq_of_rest u nl (w ++ QO) hrest hnl
  have hfr : frOf u = ('/' :: (w ++ QO), []) := by
    rw [frOf, hnp]
    exact splitAtFirst_of_none _ _ (by
      intro c hc
      rcases List.mem_cons.mp hc with rfl | hc
      · decide
      rcases List.mem_append.mp hc with hc | hc
      · exact (hwok c (List.mem_cons_of_mem '/' hc)).1
      · rcases hQO with ⟨h1, _⟩ | h1 <;> rw [h1] at hc
        · simp at hc
        · rcases List.mem_cons.mp hc with rfl | hc
          · decide
          · exact hq c hc)
  have hpq : pqOf u = ('/' :: w, q) := by
    rw [pqOf, hfr]
    rcases hQO with ⟨h1, h2⟩ | h1
    · subst h2
      rw [h1, List.append_nil]
      exact splitAtFirst_of_none _ _ (fun c hc => (hwok c hc).2)
    · rw [h1]
      show splitAtFirst (fun x => x == '?') (('/' :: w) ++ '?' :: q) = ('/' :: w, q)
      exact splitAtFirst_append _ _ _ _ (fun c hc => (hwok c hc).2) (by decide)
  have hrec : urlsplitL u = ⟨(splitScheme (url1Of u)).1, (netPairOf u).1,
      (pqOf u).1, (pqOf u).2, (frOf u).2⟩ := rfl
  rw [hrec]
  simp only [hss, hnp, hpq, hfr]

theorem parse_assembled (sc nl A q : List Char)
    (hsc : sc = [] ∨ ((∃ c r, sc = c :: r ∧ asciiAlpha c = true) ∧
      ∀ x ∈ sc, x ∈ schemeChars ∧ pyLowerChar x = x))
    (hnl : ∀ c ∈ nl, netlocDelim c = false ∧ keepChar c = true)
    (hA : ∃ w, A = '/' :: w)
    (hAok : ∀ c ∈ A, ((c == '#') = false ∧ (c == '?') = false) ∧ keepChar c = true)
    (hq : ∀ c ∈ q, (c == '#') = false ∧ keepChar c = true) :
    urlsplitL ((if sc = [] then [] else sc ++ [':']) ++ '/' :: '/' ::
        (nl ++ (A ++ (if q = [] then [] else '?' :: q)))) =
      ⟨sc, nl, A, q, []⟩ := by
  obtain ⟨w, rfl⟩ := hA
  have hQO : (if q = [] then ([] : List Char) else '?' :: q) = [] ∧ q = [] ∨
      (if q = [] then ([] : List Char) else '?' :: q) = '?' :: q := by
    by_cases hqe : q = []
    · exact Or.inl ⟨by rw [if_pos hqe], hqe⟩
    · exact Or.inr (by rw [if_neg hqe])
  have hQOk : ∀ c ∈ (if q = [] then ([] : List Char) else '?' :: q),
      (c == '#') = false ∧ keepChar c = true := by
    intro c hc
    rcases hQO with ⟨h1, _⟩ | h1 <;> rw [h1] at hc
    · simp at hc
    · rcases List.mem_cons.mp hc with rfl | hc
      · exact ⟨by decide, by decide⟩
      · exact hq c hc
  have hkeepRest : ∀ x ∈ '/' :: (nl ++ (('/' :: w) ++
      (if q = [] then ([] : List Char) else '?' :: q))), keepChar x = true := by
    intro x hx
    rcases List.mem_cons.mp hx with rfl | hx
    · decide
    rcases List.mem_append.mp hx with hx | hx
    · exact (hnl x hx).2
    rcases List.mem_append.mp hx with hx | hx
    · exact (hAok x hx).2
    · exact (hQOk x hx).2
  have hss : splitScheme (url1Of ((if sc = [] then [] else sc ++ [':']) ++
      '/' :: '/' :: (nl ++ (('/' :: w) ++
        (if q = [] then ([] : List Char) else '?' :: q))))) =
      (sc, '/' :: '/' :: (nl ++ (('/' :: w) ++
        (if q = [] then ([] : List Char) else '?' :: q)))) := by
    rcases hsc with rfl | ⟨⟨c, r, rfl, hal⟩, hmem⟩
    · rw [if_pos rfl, List.nil_append]
      exact restOf_noscheme _ (by
        intro x hx
        rcases List.mem_cons.mp hx with rfl | hx
        · decide
        · exact hkeepRest x hx)
    · rw [if_neg (by simp), List.append_assoc]
      exact restOf_scheme c r _ hal hmem (by
        intro x hx
        rcases List.mem_cons.mp hx with rfl | hx
        · decide
        · exact hkeepRest x hx)
  exact urlsplitL_of_scheme_rest _ sc nl w _ q hss (fun c hc => (hnl c hc).1)
    (fun c hc => (hAok c hc).1) hQO (fun c hc => (hq c hc).1)

/-- Re-parsing the unparse of a well-formed parse result with non-empty
netloc, empty fragment, slash-led path and semicolon-free path recovers
every component. -/
theorem urlparse_unparse (t : UrlParsed) (hg : ParsedGood t)
    (hn : t.netloc ≠ []) (hf : t.fragment = [])
    (hp : ∃ r, t.path = '/' :: r) (hsemi : ';' ∉ t.path) :
    urlparseL (urlunparseL t) = t := by
  obtain ⟨sc, nl, pa, pr, q, fr⟩ := t
  have hf' : fr = [] := hf
  subst hf'
  obtain ⟨r0, hp'⟩ := hp
  have hp2 : pa = '/' :: r0 := hp'
  subst hp2
  have hn' : nl ≠ [] := hn
  have hsemi2 : ';' ∉ '/' :: r0 := hsemi
  have hsemi' : ∀ c ∈ '/' :: r0, (c == ';') = false := by
    intro c hc
    simp only [beq_eq_false_iff_ne, ne_eq]
    rintro rfl
    exact hsemi2 hc
  have hpath_ok : ∀ c ∈ '/' :: r0,
      ((c == '#') = false ∧ (c == '?') = false) ∧ keepChar c = true := hg.path_ok
  have hparams_ok : ∀ c ∈ pr,
      ((c == '#') = false ∧ (c == '?') = false ∧ (c == '/') = false) ∧
        keepChar c = true := hg.params_ok
  have hnl_ok : ∀ c ∈ nl, netlocDelim c = false ∧ keepChar c = true :=
    hg.netloc_ok
  have hq_ok : ∀ c ∈ q, (c == '#') = false ∧ keepChar c = true := hg.query_ok
  have hsc_good : sc = [] ∨ ((∃ c r, sc = c :: r ∧ asciiAlpha c = true) ∧
      ∀ x ∈ sc, x ∈ schemeChars ∧ pyLowerChar x = x) := hg.scheme_good
  have hAshape : ∃ w, (if pr ≠ [] then ('/' :: r0) ++ ';' :: pr else '/' :: r0)
      = '/' :: w := by
    by_cases hpr : pr = []
    · exact ⟨r0, by simp [hpr]⟩
    · exact ⟨r0 ++ ';' :: pr, by simp [hpr]⟩
  obtain ⟨w, hw⟩ := hAshape
  have hAok : ∀ c ∈ (if pr ≠ [] then ('/' :: r0) ++ ';' :: pr else '/' :: r0),
      ((c == '#') = false ∧ (c == '?') = false) ∧ keepChar c = true := by
    intro c hc
    by_cases hpr : pr = []
    · rw [if_neg (by simp [hpr])] at hc
      exact hpath_ok c hc
    · rw [if_pos hpr] at hc
      rcases List.mem_append.mp hc with h | h
      · exact hpath_ok c h
      · rcases List.mem_cons.mp h with rfl | h
        · exact ⟨⟨by decide, by decide⟩, by decide⟩
        · exact ⟨⟨(hparams_ok c h).1.1, (hparams_ok c h).1.2.1⟩,
            (hparams_ok c h).2⟩
  have hout : urlunparseL ⟨sc, nl, '/' :: r0, pr, q, []⟩ =
      (if sc = [] then [] else sc ++ [':']) ++ '/' :: '/' ::
        (nl ++ ((if pr ≠ [] then ('/' :: r0) ++ ';' :: pr else '/' :: r0) ++
          (if q = [] then [] else '?' :: q))) := by
    have h0 : urlunparseL ⟨sc, nl, '/' :: r0, pr, q, []⟩ =
        urlunsplitL sc nl
          (if pr ≠ [] then ('/' :: r0) ++ ';' :: pr else '/' :: r0) q [] := rfl
    rw [h0, hw, urlunsplitL_form sc nl q w hn', ← hw]
  have hsplit : urlsplitL (urlunparseL ⟨sc, nl, '/' :: r0, pr, q, []⟩) =
      ⟨sc, nl, (if pr ≠ [] then ('/' :: r0) ++ ';' :: pr else '/' :: r0),
        q, []⟩ := by
    rw [hout]
    exact parse_assembled sc nl _ q hsc_good hnl_ok ⟨w, hw⟩ hAok hq_ok
  rw [urlparseL_of_split, hsplit]
  by_cases hpr : pr = []
  · subst hpr
    have hA : (if ([] : List Char) ≠ [] then ('/' :: r0) ++ ';' :: []
        else '/' :: r0) = '/' :: r0 := by simp
    simp only [hA]
    have hcond : ¬(sc ∈ usesParams ∧ ';' ∈ '/' :: r0) := fun h => hsemi2 h.2
    rw [if_neg hcond]
  · have hA : (if pr ≠ [] then ('/' :: r0) ++ ';' :: pr else '/' :: r0)
        = ('/' :: r0) ++ ';' :: pr := by simp [hpr]
    simp only [hA]
    have hsp : sc ∈ usesParams := hg.params_scheme hpr
    have hmemSemi : ';' ∈ ('/' :: r0) ++ ';' :: pr :=
      List.mem_append.mpr (Or.inr (List.mem_cons_self _ _))
    have hsplitp : splitParams (('/' :: r0) ++ ';' :: pr) = ('/' :: r0, pr) :=
      splitParams_append _ _ (List.mem_cons_self '/' r0) hsemi'
        (fun c hc => (hparams_ok c hc).1.2.2)
    rw [if_pos ⟨hsp, hmemSemi⟩, hsplitp]

theorem parsedGood_normalized (p : UrlParsed) (hg : ParsedGood p)
    (hn : p.netloc ≠ []) :
    ParsedGood { p with
      fragment := ([] : List Char)
      path := rstripOr p.path } := by
  constructor
  · exact hg.scheme_good
  · exact hg.netloc_ok
  · intro c hc
    rcases mem_rstripOr hc with rfl | hc2
    · exact ⟨⟨by decide, by decide⟩, by decide⟩
    · exact hg.path_ok c hc2
  · intro _
    right
    exact rstripOr_head _ (hg.path_start hn)
  · exact hg.params_ok
  · exact hg.params_scheme
  · exact hg.query_ok

/-- **C10, amended.**  `normalize_url` is idempotent on every URL whose
parse has a non-empty netloc and whose slash-stripped path contains no
semicolon: re-parsing the reassembled URL recovers each component, and
stripping trailing slashes is itself idempotent.  (The unrestricted claim
is refuted by `c10_normalize_url_counterexample`: on inputs such as
`"////x"` the empty-netloc reassembly shifts path characters into the
netloc of the second parse.) -/
theorem c10_normalize_url_amended (u : String)
    (hn : (urlparseL u.data).netloc ≠ [])
    (hs : ';' ∉ rstripOr (urlparseL u.data).path) :
    normalize_url (normalize_url u) = normalize_url u := by
  have hgood := parsedGood_urlparseL u.data
  have hg1 : ParsedGood { urlparseL u.data with
      fragment := ([] : List Char)
      path := rstripOr (urlparseL u.data).path } :=
    parsedGood_normalized _ hgood hn
  have ht : ∃ r, rstripOr (urlparseL u.data).path = '/' :: r :=
    rstripOr_head _ (hgood.path_start hn)
  have hparse : urlparseL (urlunparseL { urlparseL u.data with
      fragment := ([] : List Char)
      path := rstripOr (urlparseL u.data).path }) =
      { urlparseL u.data with
        fragment := ([] : List Char)
        path := rstripOr (urlparseL u.data).path } :=
    urlparse_unparse _ hg1 hn rfl ht hs
  have h1 : normalizeUrl u.data = urlunparseL { urlparseL u.data with
      fragment := ([] : List Char)
      path := rstripOr (urlparseL u.data).path } := rfl
  have key : normalizeUrl (normalizeUrl u.data) = normalizeUrl u.data := by
    calc normalizeUrl (normalizeUrl u.data)
        = urlunparseL { urlparseL (normalizeUrl u.data) with
            fragment := ([] : List Char)
            path := rstripOr (urlparseL (normalizeUrl u.data)).path } := rfl
      _ = normalizeUrl u.data := by
          rw [h1, hparse]
          show urlunparseL { urlparseL u.data with
              fragment := ([] : List Char)
              path := rstripOr (rstripOr (urlparseL u.data).path) } =
            urlunparseL { urlparseL u.data with
              fragment := ([] : List Char)
              path := rstripOr (urlparseL u.data).path }
          rw [rstripOr_idem]
  exact congrArg String.mk key

theorem c10_normalize_url_amended_witness :
    (urlparseL "http://h/a/".data).netloc ≠ [] ∧
      ';' ∉ rstripOr (urlparseL "http://h/a/".data).path ∧
      normalize_url (normalize_url "http://h/a/") = normalize_url "http://h/a/" :=
  ⟨by decide, by decide,
    c10_normalize_url_amended "http://h/a/" (by decide) (by decide)⟩
